import Mathlib

/-!
# Parallel merge sort (`ParallelMergeSort.cpp`)

A shallow embedding of the OpenMP merge sort and a verification of its
specification.

Conventions of the embedding.

* An array is a list of cells plus a trace of the indices that were read or
  written.  An access outside the array has no defined behaviour in the
  source; here it makes the operation return `none`.
* A scratch array obtained from `new int[size]` holds `none` in every cell
  that was never written; reading such a cell returns `none` as well.
* Ranks, sizes and indices are natural numbers (they are non-negative in every
  call the program makes).  The two subtractions that could go below zero in
  the source, `p - 1` and `p - coreDiff`, are evaluated over the integers;
  `listSize - remain` is only evaluated where `listSize = n / p + remain`.
  Index arithmetic is not reduced modulo `2 ^ 32`: in a run that stays inside
  the buffer every index is at most `N` and `divisor` is at most `2 * P`.
  Where a span of `merge` is considered that need not lie inside the buffer,
  it is computed in `int` arithmetic, every result reduced to 32 bits
  (`mergeSpan32`, `spanAt32`).
* A division by zero (`n % p` with `p = 0`) returns `none`.
* Buffer elements are mathematical integers; the one place where the source
  does arithmetic on elements, `compare`, wraps its result to 32 bits.
* `qsort` belongs to the C library, not to the repository; it is modelled as a
  sort that decides every placement by the sign of `compar`.
* The `while` loops whose progress is not evident from their condition take a
  bound on the number of passes and return `none` when it does not suffice;
  the counted `for` loops recurse on the number of iterations left.
* The `P` threads are simulated sequentially, rank `0` to rank `P - 1`, once
  for the local sort and once for every merge round: the barrier at the head
  of the round loop separates exactly these phases.
-/

namespace ParallelMergeSort

/-! ## Memory -/

/-- An array with the trace of the indices accessed so far, most recent first. -/
structure Arr (α : Type) where
  cells : List α
  log : List Nat

/-- Read `a[i]`; `none` when `i` is out of bounds. -/
def Arr.read {α : Type} (a : Arr α) (i : Nat) : Option (α × Arr α) :=
  match a.cells[i]? with
  | some v => some (v, ⟨a.cells, i :: a.log⟩)
  | none => none

/-- Write `a[i] = v`; `none` when `i` is out of bounds. -/
def Arr.write {α : Type} (a : Arr α) (i : Nat) (v : α) : Option (Arr α) :=
  if i < a.cells.length then some ⟨a.cells.set i v, i :: a.log⟩ else none

/-- The result of `new int[size]`: `size` cells, none of them written yet. -/
def newInt (size : Nat) : Arr (Option Int) :=
  ⟨List.replicate size none, []⟩

/-- The values of a block of scratch cells, provided every one was written. -/
def cellValues : List (Option Int) → Option (List Int)
  | [] => some []
  | none :: _ => none
  | some v :: rest =>
    match cellValues rest with
    | some vs => some (v :: vs)
    | none => none

/-! ## `compare` and the library sort -/

/-- Reduction of an integer to the range of a 32-bit signed `int`. -/
def wrapInt32 (x : Int) : Int :=
  (x + 2147483648) % 4294967296 - 2147483648

/-- The comparator `return ( *(int*)a - *(int*)b );`. -/
def compare (a b : Int) : Int :=
  wrapInt32 (a - b)

/-- Insertion step of the library sort: `x` goes before the first element it
does not compare greater than. -/
def qsortInsert (compar : Int → Int → Int) (x : Int) : List Int → List Int
  | [] => [x]
  | y :: ys => if compar x y ≤ 0 then x :: y :: ys else y :: qsortInsert compar x ys

/-- The C library routine `qsort`, which is not part of the repository: a
comparison sort that consults `compar` only, modelled as an insertion sort. -/
def qsort (compar : Int → Int → Int) (base : List Int) : List Int :=
  base.foldr (qsortInsert compar) []

/-- The call `qsort(localList, num, sizeof(int), compar)` on a scratch array:
the first `num` cells are sorted in place. -/
def qsortArr (compar : Int → Int → Int) (base : Arr (Option Int)) (num : Nat) :
    Option (Arr (Option Int)) :=
  if num ≤ base.cells.length then
    match cellValues (base.cells.take num) with
    | some vs => some ⟨(qsort compar vs).map some ++ base.cells.drop num, base.log⟩
    | none => none
  else none

/-! ## Copy loops -/

/-- The loop `for (; src < stop; src++, i++) localList[i] = globalList[src];`
with `k = stop - src` iterations left. -/
def copyIn : Nat → Arr Int → Arr (Option Int) → Nat → Nat →
    Option (Arr Int × Arr (Option Int))
  | 0, g, l, _, _ => some (g, l)
  | k + 1, g, l, src, i =>
    match g.read src with
    | none => none
    | some (v, g1) =>
      match l.write i (some v) with
      | none => none
      | some l1 => copyIn k g1 l1 (src + 1) (i + 1)

/-- The loop `for (; dst < stop; dst++, i++) globalList[dst] = localList[i];`
with `k = stop - dst` iterations left. -/
def copyOut : Nat → Arr (Option Int) → Arr Int → Nat → Nat →
    Option (Arr (Option Int) × Arr Int)
  | 0, l, g, _, _ => some (l, g)
  | k + 1, l, g, i, dst =>
    match l.read i with
    | some (some v, l1) =>
      match g.write dst v with
      | none => none
      | some g1 => copyOut k l1 g1 (i + 1) (dst + 1)
    | _ => none

/-! ## `localSort`: chunk ranges and the local sort -/

/-- The remainder computed by `main`: `n % p` (zero when `p` divides `n`);
`none` for the division by zero. -/
def mainRemain (n p : Nat) : Option Nat :=
  if p = 0 then none else some (if n % p ≠ 0 then n % p else 0)

/-- The test `remain != 0 && my_rank == p - 1` of `localSort`. -/
def isLastWithRemain (p remain my_rank : Nat) : Bool :=
  decide (remain ≠ 0 ∧ (my_rank : Int) = (p : Int) - 1)

/-- The variable `listSize` of `localSort` for thread `my_rank`. -/
def listSizeOf (n p remain my_rank : Nat) : Nat :=
  if isLastWithRemain p remain my_rank then n / p + remain else n / p

/-- The variable `my_start` of `localSort` for thread `my_rank`. -/
def myStartOf (n p remain my_rank : Nat) : Nat :=
  if isLastWithRemain p remain my_rank then
    (listSizeOf n p remain my_rank - remain) * my_rank
  else listSizeOf n p remain my_rank * my_rank

/-- The variable `my_end` of `localSort` for thread `my_rank`. -/
def myEndOf (n p remain my_rank : Nat) : Nat :=
  myStartOf n p remain my_rank + listSizeOf n p remain my_rank

/-- The first part of `localSort` for thread `my_rank`, up to the copy back
into the global list (the part before the round loop). -/
def localSortChunk (n p : Nat) (globalList : Arr Int) (remain my_rank : Nat) :
    Option (Arr Int) :=
  if p = 0 then none else
  let listSize := listSizeOf n p remain my_rank
  let my_start := myStartOf n p remain my_rank
  let localList := newInt listSize
  let my_end := my_start + listSize
  match copyIn (my_end - my_start) globalList localList my_start 0 with
  | none => none
  | some (g1, l1) =>
    match qsortArr compare l1 listSize with
    | none => none
    | some l2 =>
      match copyOut (my_end - my_start) l2 g1 0 my_start with
      | none => none
      | some (_, g2) => some g2

/-! ## `merge` -/

/-- The variables of the two-pointer loop of `merge`. -/
structure MergeState where
  globalList : Arr Int
  localList : Arr (Option Int)
  i : Nat
  tempRecStart : Nat
  tempSendStart : Nat

/-- One pass through the body of the two-pointer loop.  The two elements are
compared with `<=` and then with `>=`; when neither test succeeds the state is
left as it is. -/
def mergeBody (s : MergeState) : Option MergeState :=
  match s.globalList.read s.tempRecStart with
  | none => none
  | some (a, g1) =>
    match g1.read s.tempSendStart with
    | none => none
    | some (b, g2) =>
      if a ≤ b then
        match s.localList.write s.i (some a) with
        | none => none
        | some l1 => some ⟨g2, l1, s.i + 1, s.tempRecStart + 1, s.tempSendStart⟩
      else if a ≥ b then
        match s.localList.write s.i (some b) with
        | none => none
        | some l1 => some ⟨g2, l1, s.i + 1, s.tempRecStart, s.tempSendStart + 1⟩
      else some ⟨g2, s.localList, s.i, s.tempRecStart, s.tempSendStart⟩

/-- The loop `while (tempRecStart != recEnd && tempSendStart != sendEnd)`,
allowed at most `fuel` passes; `none` when the passes do not suffice. -/
def mergeLoop (recEnd sendEnd : Nat) : Nat → MergeState → Option MergeState
  | 0, s =>
    if s.tempRecStart ≠ recEnd ∧ s.tempSendStart ≠ sendEnd then none else some s
  | fuel + 1, s =>
    if s.tempRecStart ≠ recEnd ∧ s.tempSendStart ≠ sendEnd then
      match mergeBody s with
      | none => none
      | some s1 => mergeLoop recEnd sendEnd fuel s1
    else some s

/-- The two drain loops after the two-pointer loop. -/
def mergeDrain (recEnd sendEnd : Nat) (s : MergeState) :
    Option (Arr Int × Arr (Option Int)) :=
  if s.tempRecStart = recEnd ∧ s.tempSendStart ≠ sendEnd then
    copyIn (sendEnd - s.tempSendStart) s.globalList s.localList s.tempSendStart s.i
  else if s.tempSendStart = sendEnd ∧ s.tempRecStart ≠ recEnd then
    copyIn (recEnd - s.tempRecStart) s.globalList s.localList s.tempRecStart s.i
  else some (s.globalList, s.localList)

/-- The test `sender == (p - coreDiff) && (n%p) != 0`; the remainder is only
evaluated when the first conjunct holds, and `none` is its division by zero. -/
def senderHasRemain (sender coreDiff n p : Nat) : Option Bool :=
  if (sender : Int) = (p : Int) - (coreDiff : Int) then
    if p = 0 then none else some (decide (n % p ≠ 0))
  else some false

/-- The value of `sendEnd` after the remainder test of `merge`. -/
def sendEndOf (sender listSize coreDiff n p : Nat) (ext : Bool) : Nat :=
  if ext then sender * listSize + listSize * coreDiff + n % p
  else sender * listSize + listSize * coreDiff

/-- The value of `size` after the remainder test of `merge`. -/
def scratchSize (listSize divisor n p : Nat) (ext : Bool) : Nat :=
  if ext then listSize * divisor + n % p else listSize * divisor

/-- The function `merge`. -/
def merge (receiver sender listSize coreDiff divisor : Nat) (globalList : Arr Int)
    (n p : Nat) : Option (Arr Int) :=
  let recStart := receiver * listSize
  let recEnd := recStart + listSize * coreDiff
  let sendStart := sender * listSize
  match senderHasRemain sender coreDiff n p with
  | none => none
  | some ext =>
    let sendEnd := sendEndOf sender listSize coreDiff n p ext
    let size := scratchSize listSize divisor n p ext
    let localList := newInt size
    match mergeLoop recEnd sendEnd ((recEnd - recStart) + (sendEnd - sendStart))
        ⟨globalList, localList, 0, recStart, sendStart⟩ with
    | none => none
    | some s =>
      match mergeDrain recEnd sendEnd s with
      | none => none
      | some (g1, l1) =>
        match copyOut (sendEnd - recStart) l1 g1 0 recStart with
        | none => none
        | some (_, g2) => some g2

/-! ## The round loop and the whole run -/

/-- The local sort of threads `0 .. k - 1`, one after the other. -/
def localSortPhase (n p remain : Nat) : Nat → Arr Int → Option (Arr Int)
  | 0, g => some g
  | k + 1, g =>
    match localSortPhase n p remain k g with
    | none => none
    | some g1 => localSortChunk n p g1 remain k

/-- The body of the round loop for thread `my_rank`: a receiver calls `merge`,
a sender does nothing. -/
def mergeStep (n p remain divisor coreDifference : Nat) (globalList : Arr Int)
    (my_rank : Nat) : Option (Arr Int) :=
  if my_rank % divisor = 0 then
    merge my_rank (my_rank + coreDifference) (listSizeOf n p remain my_rank)
      coreDifference divisor globalList n p
  else some globalList

/-- One round: the loop body of threads `0 .. k - 1`, one after the other. -/
def mergeRound (n p remain divisor coreDifference : Nat) : Nat → Arr Int → Option (Arr Int)
  | 0, g => some g
  | k + 1, g =>
    match mergeRound n p remain divisor coreDifference k g with
    | none => none
    | some g1 => mergeStep n p remain divisor coreDifference g1 k

/-- The loop `while (divisor <= p)` of `localSort`, allowed at most `fuel`
rounds; `none` when the rounds do not suffice. -/
def mergeRounds (n p remain : Nat) : Nat → Nat → Nat → Arr Int → Option (Arr Int)
  | 0, divisor, _, g => if divisor ≤ p then none else some g
  | fuel + 1, divisor, coreDifference, g =>
    if divisor ≤ p then
      match mergeRound n p remain divisor coreDifference p g with
      | none => none
      | some g1 => mergeRounds n p remain fuel (divisor * 2) (coreDifference * 2) g1
    else some g

/-- The parallel region of `main` on the list `listNum`: every thread runs
`localSort`.  The round loop doubles `divisor` from `2`, so `p` rounds are
more than it can use. -/
def parallelMergeSort (n p : Nat) (listNum : List Int) : Option (Arr Int) :=
  match mainRemain n p with
  | none => none
  | some remain =>
    match localSortPhase n p remain p ⟨listNum, []⟩ with
    | none => none
    | some g => mergeRounds n p remain p 2 1 g

/-! ## `checkSort` -/

/-- A line printed by `checkSort`: `SORTED` or `NOT SORTED`. -/
inductive Report where
  | sorted
  | notSorted
  deriving DecidableEq

/-- The loop `for (int i = 0; i < n - 1; i++)` of `checkSort` from index `i`
with `k` iterations left, and the statement after it: the first pair with
`globalList[i] > globalList[i+1]` prints `NOT SORTED` and returns, the end of
the loop prints `SORTED`.  The result is what was printed and the list. -/
def checkSortLoop : Nat → Arr Int → Nat → Option (List Report × Arr Int)
  | 0, g, _ => some ([Report.sorted], g)
  | k + 1, g, i =>
    match g.read i with
    | none => none
    | some (a, g1) =>
      match g1.read (i + 1) with
      | none => none
      | some (b, g2) =>
        if a > b then some ([Report.notSorted], g2)
        else checkSortLoop k g2 (i + 1)

/-- The function `checkSort`; the loop bound `n - 1` is below zero for `n = 0`
and the loop then makes no iteration, as with the truncated subtraction. -/
def checkSort (globalList : Arr Int) (n : Nat) : Option (List Report × Arr Int) :=
  checkSortLoop (n - 1) globalList 0

/-! ## The round loop around an arbitrary body -/

/-- The loop `while (divisor <= p) { body; divisor *= 2; coreDifference *= 2; }`
of `localSort` with the work of one round left open, allowed at most `fuel`
passes.  The result is the final state, the number of passes made and the
final value of `divisor`. -/
def roundLoop {α : Type} (body : Nat → Nat → α → Option α) (p : Nat) :
    Nat → Nat → Nat → α → Option (α × Nat × Nat)
  | 0, divisor, _, g => if divisor ≤ p then none else some (g, 0, divisor)
  | fuel + 1, divisor, coreDifference, g =>
    if divisor ≤ p then
      match body divisor coreDifference g with
      | none => none
      | some g1 =>
        match roundLoop body p fuel (divisor * 2) (coreDifference * 2) g1 with
        | none => none
        | some (g2, k, last) => some (g2, k + 1, last)
    else some (g, 0, divisor)

/-- One round with the threads taken in the order of the list `ranks`. -/
def mergeRoundIn (n p remain divisor coreDifference : Nat) : List Nat → Arr Int → Option (Arr Int)
  | [], g => some g
  | my_rank :: rest, g =>
    match mergeStep n p remain divisor coreDifference g my_rank with
    | none => none
    | some g1 => mergeRoundIn n p remain divisor coreDifference rest g1

/-! ## `merge` with its scratch list, and with a plain `else` -/

/-- The function `merge`, returning next to the global list the scratch list
as it is after the drain loops and as it is after the write-back loop. -/
def mergeTraced (receiver sender listSize coreDiff divisor : Nat) (globalList : Arr Int)
    (n p : Nat) : Option (Arr (Option Int) × Arr (Option Int) × Arr Int) :=
  let recStart := receiver * listSize
  let recEnd := recStart + listSize * coreDiff
  let sendStart := sender * listSize
  match senderHasRemain sender coreDiff n p with
  | none => none
  | some ext =>
    let sendEnd := sendEndOf sender listSize coreDiff n p ext
    let size := scratchSize listSize divisor n p ext
    let localList := newInt size
    match mergeLoop recEnd sendEnd ((recEnd - recStart) + (sendEnd - sendStart))
        ⟨globalList, localList, 0, recStart, sendStart⟩ with
    | none => none
    | some s =>
      match mergeDrain recEnd sendEnd s with
      | none => none
      | some (g1, l1) =>
        match copyOut (sendEnd - recStart) l1 g1 0 recStart with
        | none => none
        | some (l2, g2) => some (l1, l2, g2)

/-- The body of the two-pointer loop as the specification reads it: the
second test `>=` replaced by a plain `else`. -/
def mergeBodyPlainElse (s : MergeState) : Option MergeState :=
  match s.globalList.read s.tempRecStart with
  | none => none
  | some (a, g1) =>
    match g1.read s.tempSendStart with
    | none => none
    | some (b, g2) =>
      if a ≤ b then
        match s.localList.write s.i (some a) with
        | none => none
        | some l1 => some ⟨g2, l1, s.i + 1, s.tempRecStart + 1, s.tempSendStart⟩
      else
        match s.localList.write s.i (some b) with
        | none => none
        | some l1 => some ⟨g2, l1, s.i + 1, s.tempRecStart, s.tempSendStart + 1⟩

/-- The two-pointer loop with the plain `else` body. -/
def mergeLoopPlainElse (recEnd sendEnd : Nat) : Nat → MergeState → Option MergeState
  | 0, s =>
    if s.tempRecStart ≠ recEnd ∧ s.tempSendStart ≠ sendEnd then none else some s
  | fuel + 1, s =>
    if s.tempRecStart ≠ recEnd ∧ s.tempSendStart ≠ sendEnd then
      match mergeBodyPlainElse s with
      | none => none
      | some s1 => mergeLoopPlainElse recEnd sendEnd fuel s1
    else some s

/-- The function `merge` with the plain `else` loop. -/
def mergePlainElse (receiver sender listSize coreDiff divisor : Nat) (globalList : Arr Int)
    (n p : Nat) : Option (Arr Int) :=
  let recStart := receiver * listSize
  let recEnd := recStart + listSize * coreDiff
  let sendStart := sender * listSize
  match senderHasRemain sender coreDiff n p with
  | none => none
  | some ext =>
    let sendEnd := sendEndOf sender listSize coreDiff n p ext
    let size := scratchSize listSize divisor n p ext
    let localList := newInt size
    match mergeLoopPlainElse recEnd sendEnd ((recEnd - recStart) + (sendEnd - sendStart))
        ⟨globalList, localList, 0, recStart, sendStart⟩ with
    | none => none
    | some s =>
      match mergeDrain recEnd sendEnd s with
      | none => none
      | some (g1, l1) =>
        match copyOut (sendEnd - recStart) l1 g1 0 recStart with
        | none => none
        | some (_, g2) => some g2

/-! ## The span of `merge` in `int` arithmetic -/

/-- The values of `recStart` and `sendEnd` that `merge` computes from its
arguments (lines 171 to 184), with every product, sum and difference of `int`
values reduced to 32 bits; `none` is the division by zero in `n%p`. -/
def mergeSpan32 (receiver sender listSize coreDiff n p : Int) : Option (Int × Int) :=
  let recStart := wrapInt32 (receiver * listSize)
  let sendStart := wrapInt32 (sender * listSize)
  let sendEnd := wrapInt32 (sendStart + wrapInt32 (listSize * coreDiff))
  if sender = wrapInt32 (p - coreDiff) then
    if p = 0 then none
    else if Int.tmod n p ≠ 0 then some (recStart, wrapInt32 (sendEnd + Int.tmod n p))
    else some (recStart, sendEnd)
  else some (recStart, sendEnd)

/-- The span of the call `merge(my_rank, my_rank + coreDifference, listSize,
coreDifference, divisor, globalList, n, p)` that thread `my_rank` makes in
`localSort`, in `int` arithmetic. -/
def spanAt32 (n p remain coreDifference my_rank : Nat) : Option (Int × Int) :=
  mergeSpan32 (my_rank : Int) (wrapInt32 ((my_rank : Int) + (coreDifference : Int)))
    (listSizeOf n p remain my_rank : Nat) (coreDifference : Int) (n : Int) (p : Int)

/-! ## Notions used in the statements -/

/-- The part of a list between positions `a` and `b`. -/
def slice (buf : List Int) (a b : Nat) : List Int :=
  (buf.drop a).take (b - a)

/-- The merge of two lists that takes from the left list on a tie. -/
def mergeLists (xs ys : List Int) : List Int :=
  List.merge xs ys (fun a b => decide (a ≤ b))

/-- The list `buf` with the part between positions `a` and `b` replaced by `m`. -/
def splice (buf : List Int) (a b : Nat) (m : List Int) : List Int :=
  buf.take a ++ m ++ buf.drop b

/-- The boundary in front of rank `x`: `x` chunks of the base size, and the end
of the buffer for `x = p`. -/
def bnd (n p x : Nat) : Nat :=
  if x = p then n else n / p * x

/-- The value of `recStart` in the call of `merge` that thread `my_rank` makes
with its own `listSize`, as a natural number: the value the `int` arithmetic
of `merge` gives when the span lies inside the buffer (`spanAt32_eq`). -/
def recStartAt (n p remain my_rank : Nat) : Nat :=
  my_rank * listSizeOf n p remain my_rank

/-- The value of `sendStart` in the call of `merge` that thread `my_rank` makes
in the round with distance `coreDifference`. -/
def sendStartAt (n p remain coreDifference my_rank : Nat) : Nat :=
  (my_rank + coreDifference) * listSizeOf n p remain my_rank

/-- The final value of `sendEnd` in the call of `merge` that thread `my_rank`
makes in the round with distance `coreDifference` (for `p ≥ 1`), as a natural
number: the value the `int` arithmetic of `merge` gives when the span lies
inside the buffer (`spanAt32_eq`). -/
def sendEndAt (n p remain coreDifference my_rank : Nat) : Nat :=
  sendEndOf (my_rank + coreDifference) (listSizeOf n p remain my_rank) coreDifference n p
    (decide (((my_rank + coreDifference : Nat) : Int) = (p : Int) - (coreDifference : Int)
      ∧ n % p ≠ 0))

/-- The cells after the loop body of thread `my_rank` in the round with
distance `d`, for a list of `n` cells: a receiver replaces its span by the
merge of its two ranges. -/
def stepCells (n p remain d : Nat) (cells : List Int) (my_rank : Nat) : List Int :=
  if cells.length = n ∧ my_rank % (2 * d) = 0 then
    splice cells (recStartAt n p remain my_rank) (sendEndAt n p remain d my_rank)
      (mergeLists
        (slice cells (recStartAt n p remain my_rank) (sendStartAt n p remain d my_rank))
        (slice cells (sendStartAt n p remain d my_rank) (sendEndAt n p remain d my_rank)))
  else cells

/-! ## Basic facts -/

theorem read_some {α : Type} (a : Arr α) (i : Nat) (v : α) (h : a.cells[i]? = some v) :
    a.read i = some (v, ⟨a.cells, i :: a.log⟩) := by
  simp [Arr.read, h]

theorem write_some {α : Type} (a : Arr α) (i : Nat) (v : α) (h : i < a.cells.length) :
    a.write i v = some ⟨a.cells.set i v, i :: a.log⟩ := by
  simp [Arr.write, h]

theorem slice_length (buf : List Int) (a b : Nat) (h : b ≤ buf.length) :
    (slice buf a b).length = b - a := by
  simp [slice]; omega

theorem slice_self (buf : List Int) (a : Nat) : slice buf a a = [] := by
  simp [slice]

theorem slice_cons (buf : List Int) (a b : Nat) (hab : a < b) (hb : b ≤ buf.length) :
    ∃ v, buf[a]? = some v ∧ slice buf a b = v :: slice buf (a + 1) b := by
  have ha : a < buf.length := by omega
  refine ⟨buf[a], List.getElem?_eq_getElem ha, ?_⟩
  unfold slice
  rw [List.drop_eq_getElem_cons ha]
  have : b - a = (b - (a + 1)) + 1 := by omega
  rw [this, List.take_succ_cons]

theorem slice_append (buf : List Int) (a b d : Nat) (hab : a ≤ b) (hbd : b ≤ d) :
    slice buf a b ++ slice buf b d = slice buf a d := by
  unfold slice
  have h1 : d - a = (b - a) + (d - b) := by omega
  rw [h1, List.take_add, List.drop_drop]
  congr 3
  omega

theorem slice_splice (buf m : List Int) (a b : Nat) (hab : a ≤ b) (hb : b ≤ buf.length)
    (hm : m.length = b - a) :
    slice (buf.take a ++ m ++ buf.drop b) a b = m := by
  unfold slice
  have hl : (buf.take a).length = a := by simp; omega
  rw [List.append_assoc, List.drop_append_eq_append_drop]
  simp [hl]
  rw [List.take_append_eq_append_take]
  simp [hm]

/-! ## The copy loops -/

theorem scratch_write (ws : List Int) (r : Nat) (lg : List Nat) (v : Int) :
    (⟨ws.map some ++ List.replicate (r + 1) none, lg⟩ : Arr (Option Int)).write ws.length
        (some v)
      = some ⟨(ws ++ [v]).map some ++ List.replicate r none, ws.length :: lg⟩ := by
  rw [write_some _ _ _ (by simp)]
  simp [List.replicate_succ]

theorem copyIn_spec (k : Nat) : ∀ (g : Arr Int) (ws : List Int) (r : Nat) (lg : List Nat)
    (src : Nat), src + k ≤ g.cells.length →
    copyIn k g ⟨ws.map some ++ List.replicate (k + r) none, lg⟩ src ws.length
      = some (⟨g.cells, (List.range' src k).reverse ++ g.log⟩,
          ⟨(ws ++ slice g.cells src (src + k)).map some ++ List.replicate r none,
            (List.range' ws.length k).reverse ++ lg⟩) := by
  induction k with
  | zero =>
    intro g ws r lg src _
    simp [copyIn, slice]
  | succ k ih =>
    intro g ws r lg src h
    obtain ⟨v, hv, hs⟩ := slice_cons g.cells src (src + (k + 1)) (by omega) h
    have hr : k + 1 + r = (k + r) + 1 := by omega
    rw [copyIn, read_some _ _ _ hv]
    simp only [hr, scratch_write]
    have := ih ⟨g.cells, src :: g.log⟩ (ws ++ [v]) r (ws.length :: lg) (src + 1)
      (by simpa using by omega)
    simp only [List.length_append, List.length_singleton] at this
    rw [this, hs]
    have e : src + 1 + k = src + (k + 1) := by omega
    simp [e, List.range'_succ]


theorem copyOut_spec (k : Nat) : ∀ (ws : List Int) (rest : List (Option Int)) (lg : List Nat)
    (g : Arr Int) (i dst : Nat), i + k ≤ ws.length → dst + k ≤ g.cells.length →
    copyOut k ⟨ws.map some ++ rest, lg⟩ g i dst
      = some (⟨ws.map some ++ rest, (List.range' i k).reverse ++ lg⟩,
          ⟨g.cells.take dst ++ slice ws i (i + k) ++ g.cells.drop (dst + k),
            (List.range' dst k).reverse ++ g.log⟩) := by
  induction k with
  | zero =>
    intro ws rest lg g i dst _ _
    simp [copyOut, slice]
  | succ k ih =>
    intro ws rest lg g i dst hi hd
    obtain ⟨v, hv, hs⟩ := slice_cons ws i (i + (k + 1)) (by omega) hi
    have hread : (ws.map some ++ rest)[i]? = some (some v) := by
      rw [List.getElem?_append_left (by simpa using by omega)]
      simp [hv]
    rw [copyOut, read_some _ _ _ hread]
    simp only
    rw [write_some _ _ _ (by omega)]
    simp only
    rw [ih ws rest (i :: lg) ⟨g.cells.set dst v, dst :: g.log⟩ (i + 1) (dst + 1) (by omega)
      (by simpa using by omega)]
    have e1 : i + 1 + k = i + (k + 1) := by omega
    have e2 : dst + 1 + k = dst + (k + 1) := by omega
    have hd1 : dst < g.cells.length := by omega
    simp only [e1, e2, hs, List.range'_succ, List.reverse_cons, List.append_assoc,
      List.singleton_append, List.drop_set_of_lt _ _ (show dst < dst + (k + 1) by omega)]
    congr 3
    have ht : List.take (dst + 1) (g.cells.set dst v) = List.take dst g.cells ++ [v] := by
      rw [List.set_eq_take_cons_drop v hd1, List.take_append_eq_append_take]
      simp [hd1, Nat.le_of_lt hd1]
    rw [ht]
    simp


/-! ## The library sort -/

theorem cellValues_map_some (ws : List Int) : cellValues (ws.map some) = some ws := by
  induction ws with
  | nil => rfl
  | cons v ws ih => simp [cellValues, ih]

theorem qsortInsert_perm (compar : Int → Int → Int) (x : Int) (l : List Int) :
    (qsortInsert compar x l).Perm (x :: l) := by
  induction l with
  | nil => simp [qsortInsert]
  | cons y ys ih =>
    unfold qsortInsert
    split
    · exact List.Perm.refl _
    · exact (List.Perm.cons y ih).trans (List.Perm.swap x y ys)

theorem qsort_perm (compar : Int → Int → Int) (l : List Int) :
    (qsort compar l).Perm l := by
  induction l with
  | nil => exact List.Perm.refl _
  | cons x xs ih =>
    show (qsortInsert compar x (qsort compar xs)).Perm (x :: xs)
    exact (qsortInsert_perm compar x _).trans (List.Perm.cons x ih)

theorem qsort_length (compar : Int → Int → Int) (l : List Int) :
    (qsort compar l).length = l.length :=
  (qsort_perm compar l).length_eq

theorem qsortArr_spec (compar : Int → Int → Int) (ws : List Int) (lg : List Nat) :
    qsortArr compar ⟨ws.map some ++ List.replicate 0 none, lg⟩ ws.length
      = some ⟨(qsort compar ws).map some ++ [], lg⟩ := by
  have h : List.take ws.length (List.map some ws) = List.map some ws :=
    List.take_of_length_le (by simp)
  simp [qsortArr, h, cellValues_map_some]

/-! ## The local sort of one thread -/

theorem localSortChunk_spec (n p : Nat) (g : Arr Int) (remain r : Nat) (hp : 0 < p)
    (hend : myEndOf n p remain r ≤ g.cells.length) :
    localSortChunk n p g remain r
      = some ⟨g.cells.take (myStartOf n p remain r)
            ++ qsort compare (slice g.cells (myStartOf n p remain r) (myEndOf n p remain r))
            ++ g.cells.drop (myEndOf n p remain r),
          (List.range' (myStartOf n p remain r) (listSizeOf n p remain r)).reverse
            ++ ((List.range' (myStartOf n p remain r) (listSizeOf n p remain r)).reverse
              ++ g.log)⟩ := by
  unfold localSortChunk
  unfold myEndOf at *
  generalize myStartOf n p remain r = st at *
  generalize hsz : listSizeOf n p remain r = sz at *
  have hcin := copyIn_spec sz g [] 0 [] st hend
  simp only [List.map_nil, List.nil_append, List.length_nil, Nat.add_zero] at hcin
  have hq := qsortArr_spec compare (slice g.cells st (st + sz)) ((List.range' 0 sz).reverse ++ [])
  rw [slice_length _ _ _ hend, Nat.add_sub_cancel_left] at hq
  have hlen : (qsort compare (slice g.cells st (st + sz))).length = sz := by
    rw [qsort_length, slice_length _ _ _ hend]; omega
  have hco := copyOut_spec sz (qsort compare (slice g.cells st (st + sz))) []
    ((List.range' 0 sz).reverse ++ []) ⟨g.cells, (List.range' st sz).reverse ++ g.log⟩ 0 st
    (by omega) hend
  have hsl : slice (qsort compare (slice g.cells st (st + sz))) 0 (0 + sz)
      = qsort compare (slice g.cells st (st + sz)) := by
    generalize qsort compare (slice g.cells st (st + sz)) = q at hlen
    unfold slice
    simp only [List.drop_zero, Nat.zero_add, Nat.sub_zero]
    exact List.take_of_length_le (by omega)
  rw [hsl] at hco
  simp only [Nat.pos_iff_ne_zero.mp hp, if_false, newInt, Nat.add_sub_cancel_left]
  simp only [List.replicate_zero, List.append_nil] at hcin hq hco ⊢
  rw [hcin]
  simp only
  rw [hq]
  simp only
  rw [hco]


/-! ## The two-pointer loop of `merge` -/

theorem mergeLists_nil_left (ys : List Int) : mergeLists [] ys = ys := by
  simp [mergeLists]

theorem mergeLists_nil_right (xs : List Int) : mergeLists xs [] = xs := by
  simp [mergeLists]

theorem mergeLists_cons_le (x y : Int) (xs ys : List Int) (h : x ≤ y) :
    mergeLists (x :: xs) (y :: ys) = x :: mergeLists xs (y :: ys) := by
  simp [mergeLists, List.cons_merge_cons, h]

theorem mergeLists_cons_gt (x y : Int) (xs ys : List Int) (h : ¬ x ≤ y) :
    mergeLists (x :: xs) (y :: ys) = y :: mergeLists (x :: xs) ys := by
  simp [mergeLists, List.cons_merge_cons, h]

theorem mergeLists_perm (xs ys : List Int) : (mergeLists xs ys).Perm (xs ++ ys) :=
  List.merge_perm_append _

theorem mergeLists_length (xs ys : List Int) :
    (mergeLists xs ys).length = xs.length + ys.length := by
  simp [mergeLists]

theorem mergeLists_sorted (xs ys : List Int) (hx : xs.Sorted (· ≤ ·)) (hy : ys.Sorted (· ≤ ·)) :
    (mergeLists xs ys).Sorted (· ≤ ·) := by
  have h := @List.sorted_merge Int (fun a b : Int => decide (a ≤ b))
    (by intro a b c; simp; omega) (by intro a b; simp; omega) xs ys
    (by simpa [List.Sorted] using hx) (by simpa [List.Sorted] using hy)
  simpa [List.Sorted, mergeLists] using h

theorem mergeLoop_done (recEnd sendEnd fuel : Nat) (s : MergeState)
    (h : ¬ (s.tempRecStart ≠ recEnd ∧ s.tempSendStart ≠ sendEnd)) :
    mergeLoop recEnd sendEnd fuel s = some s := by
  cases fuel <;> simp only [mergeLoop, h, if_false]

theorem mergeBody_le (buf : List Int) (glog llog : List Nat) (ws : List Int) (k a b : Nat)
    (x y : Int) (hx : buf[a]? = some x) (hy : buf[b]? = some y) (h : x ≤ y) :
    mergeBody ⟨⟨buf, glog⟩, ⟨ws.map some ++ List.replicate (k + 1) none, llog⟩,
        ws.length, a, b⟩
      = some ⟨⟨buf, b :: a :: glog⟩,
          ⟨(ws ++ [x]).map some ++ List.replicate k none, ws.length :: llog⟩,
          (ws ++ [x]).length, a + 1, b⟩ := by
  simp only [mergeBody, read_some ⟨buf, glog⟩ a x hx, read_some ⟨buf, a :: glog⟩ b y hy, h,
    if_true, scratch_write, List.length_append, List.length_singleton]

theorem mergeBody_gt (buf : List Int) (glog llog : List Nat) (ws : List Int) (k a b : Nat)
    (x y : Int) (hx : buf[a]? = some x) (hy : buf[b]? = some y) (h : ¬ x ≤ y) :
    mergeBody ⟨⟨buf, glog⟩, ⟨ws.map some ++ List.replicate (k + 1) none, llog⟩,
        ws.length, a, b⟩
      = some ⟨⟨buf, b :: a :: glog⟩,
          ⟨(ws ++ [y]).map some ++ List.replicate k none, ws.length :: llog⟩,
          (ws ++ [y]).length, a, b + 1⟩ := by
  have hge : x ≥ y := by omega
  simp only [mergeBody, read_some ⟨buf, glog⟩ a x hx, read_some ⟨buf, a :: glog⟩ b y hy, h,
    hge, if_true, if_false, scratch_write, List.length_append, List.length_singleton]

theorem mergeLoop_drain_spec (buf : List Int) (recEnd sendEnd : Nat)
    (hre : recEnd ≤ buf.length) (hse : sendEnd ≤ buf.length) (r : Nat) :
    ∀ (fuel : Nat) (ws : List Int) (a b : Nat) (glog llog : List Nat),
      a ≤ recEnd → b ≤ sendEnd → (recEnd - a) + (sendEnd - b) ≤ fuel →
      ∃ s g1 l1,
        mergeLoop recEnd sendEnd fuel
            ⟨⟨buf, glog⟩,
              ⟨ws.map some ++ List.replicate ((recEnd - a) + (sendEnd - b) + r) none, llog⟩,
              ws.length, a, b⟩ = some s ∧
          mergeDrain recEnd sendEnd s = some (g1, l1) ∧
          g1.cells = buf ∧
          (∀ j ∈ g1.log, j ∈ glog ∨ (a ≤ j ∧ j < recEnd) ∨ (b ≤ j ∧ j < sendEnd)) ∧
          l1.cells
            = (ws ++ mergeLists (slice buf a recEnd) (slice buf b sendEnd)).map some
                ++ List.replicate r none := by
  intro fuel
  induction fuel with
  | zero =>
    intro ws a b glog llog ha hb hf
    have ea : a = recEnd := by omega
    have eb : b = sendEnd := by omega
    subst ea eb
    refine ⟨_, ⟨buf, glog⟩, ⟨ws.map some ++ List.replicate (a - a + (b - b) + r) none, llog⟩,
      mergeLoop_done _ _ _ _ (by simp), ?_, rfl, ?_, ?_⟩
    · simp [mergeDrain]
    · intro j hj; exact Or.inl hj
    · simp [slice_self, mergeLists_nil_left]
  | succ fuel ih =>
    intro ws a b glog llog ha hb hf
    by_cases hc : a ≠ recEnd ∧ b ≠ sendEnd
    · obtain ⟨hca, hcb⟩ := hc
      obtain ⟨x, hx, hsx⟩ := slice_cons buf a recEnd (by omega) hre
      obtain ⟨y, hy, hsy⟩ := slice_cons buf b sendEnd (by omega) hse
      by_cases hxy : x ≤ y
      · have hm : recEnd - a + (sendEnd - b) + r = (recEnd - (a + 1) + (sendEnd - b) + r) + 1 := by
          omega
        obtain ⟨s, g1, l1, h1, h2, h3, h4, h5⟩ :=
          ih (ws ++ [x]) (a + 1) b (b :: a :: glog) (ws.length :: llog) (by omega) hb (by omega)
        refine ⟨s, g1, l1, ?_, h2, h3, ?_, ?_⟩
        · rw [← h1]
          simp only [mergeLoop, ne_eq, hca, hcb, not_false_eq_true, and_self, if_true, hm,
            mergeBody_le buf glog llog ws _ a b x y hx hy hxy]
        · intro j hj
          rcases h4 j hj with h | h | h
          · simp only [List.mem_cons] at h
            rcases h with h | h | h
            · right; right; omega
            · right; left; omega
            · exact Or.inl h
          · right; left; omega
          · right; right; exact h
        · rw [h5, hsx, hsy, mergeLists_cons_le _ _ _ _ hxy, ← hsy]
          simp
      · have hm : recEnd - a + (sendEnd - b) + r = (recEnd - a + (sendEnd - (b + 1)) + r) + 1 := by
          omega
        obtain ⟨s, g1, l1, h1, h2, h3, h4, h5⟩ :=
          ih (ws ++ [y]) a (b + 1) (b :: a :: glog) (ws.length :: llog) ha (by omega) (by omega)
        refine ⟨s, g1, l1, ?_, h2, h3, ?_, ?_⟩
        · rw [← h1]
          simp only [mergeLoop, ne_eq, hca, hcb, not_false_eq_true, and_self, if_true, hm,
            mergeBody_gt buf glog llog ws _ a b x y hx hy hxy]
        · intro j hj
          rcases h4 j hj with h | h | h
          · simp only [List.mem_cons] at h
            rcases h with h | h | h
            · right; right; omega
            · right; left; omega
            · exact Or.inl h
          · right; left; exact h
          · right; right; omega
        · rw [h5, hsx, hsy, mergeLists_cons_gt _ _ _ _ hxy, ← hsx]
          simp
    · by_cases hda : a = recEnd
      · subst hda
        by_cases hdb : b = sendEnd
        · subst hdb
          refine ⟨_, ⟨buf, glog⟩,
            ⟨ws.map some ++ List.replicate (a - a + (b - b) + r) none, llog⟩,
            mergeLoop_done _ _ _ _ (by simp), ?_, rfl, ?_, ?_⟩
          · simp [mergeDrain]
          · intro j hj; exact Or.inl hj
          · simp [slice_self, mergeLists_nil_left]
        · have hcin := copyIn_spec (sendEnd - b) ⟨buf, glog⟩ ws r llog b (by simp; omega)
          have hdrain : mergeDrain a sendEnd
              ⟨⟨buf, glog⟩,
                ⟨ws.map some ++ List.replicate (a - a + (sendEnd - b) + r) none, llog⟩,
                ws.length, a, b⟩
              = some (⟨buf, (List.range' b (sendEnd - b)).reverse ++ glog⟩,
                  ⟨(ws ++ slice buf b (b + (sendEnd - b))).map some ++ List.replicate r none,
                    (List.range' ws.length (sendEnd - b)).reverse ++ llog⟩) := by
            simp only [mergeDrain, hdb, ne_eq, not_false_eq_true, and_self, if_true,
              Nat.sub_self, Nat.zero_add]
            exact hcin
          refine ⟨_, _, _, mergeLoop_done _ _ _ _ (by simp), hdrain, rfl, ?_, ?_⟩
          · intro j hj
            simp only [List.mem_append, List.mem_reverse, List.mem_range'_1] at hj
            rcases hj with h | h
            · right; right; omega
            · exact Or.inl h
          · have e : b + (sendEnd - b) = sendEnd := by omega
            simp [slice_self, mergeLists_nil_left, e]
      · have hdb : b = sendEnd := by
          by_contra hne; exact hc ⟨hda, hne⟩
        subst hdb
        have hcin := copyIn_spec (recEnd - a) ⟨buf, glog⟩ ws r llog a (by simp; omega)
        have hdrain : mergeDrain recEnd b
            ⟨⟨buf, glog⟩,
              ⟨ws.map some ++ List.replicate (recEnd - a + (b - b) + r) none, llog⟩,
              ws.length, a, b⟩
            = some (⟨buf, (List.range' a (recEnd - a)).reverse ++ glog⟩,
                ⟨(ws ++ slice buf a (a + (recEnd - a))).map some ++ List.replicate r none,
                  (List.range' ws.length (recEnd - a)).reverse ++ llog⟩) := by
          simp only [mergeDrain, hda, ne_eq, not_false_eq_true, and_self, if_true,
            Nat.sub_self, Nat.add_zero, false_and, if_false, not_true_eq_false, and_false]
          exact hcin
        refine ⟨_, _, _, mergeLoop_done _ _ _ _ (by simp), hdrain, rfl, ?_, ?_⟩
        · intro j hj
          simp only [List.mem_append, List.mem_reverse, List.mem_range'_1] at hj
          rcases hj with h | h
          · right; left; omega
          · exact Or.inl h
        · have e : a + (recEnd - a) = recEnd := by omega
          simp [slice_self, mergeLists_nil_right, e]


/-! ## `merge` as a whole -/

theorem sendStart_eq_recEnd (receiver sender listSize coreDiff : Nat)
    (hS : sender = receiver + coreDiff) :
    sender * listSize = receiver * listSize + listSize * coreDiff := by
  subst hS; ring

theorem sendEndOf_ge (sender listSize coreDiff n p : Nat) (ext : Bool) :
    sender * listSize + listSize * coreDiff ≤ sendEndOf sender listSize coreDiff n p ext := by
  unfold sendEndOf; split <;> omega

theorem scratchSize_eq (receiver sender listSize coreDiff divisor n p : Nat) (ext : Bool)
    (hS : sender = receiver + coreDiff) (hdiv : divisor = 2 * coreDiff) :
    scratchSize listSize divisor n p ext
      = sendEndOf sender listSize coreDiff n p ext - receiver * listSize := by
  have h1 := sendStart_eq_recEnd receiver sender listSize coreDiff hS
  have h2 : listSize * divisor = listSize * coreDiff + listSize * coreDiff := by
    subst hdiv; ring
  unfold scratchSize sendEndOf
  split <;> omega

theorem merge_spec (receiver sender listSize coreDiff divisor : Nat) (g : Arr Int)
    (n p : Nat) (ext : Bool) (hext : senderHasRemain sender coreDiff n p = some ext)
    (hS : sender = receiver + coreDiff) (hdiv : divisor = 2 * coreDiff)
    (hend : sendEndOf sender listSize coreDiff n p ext ≤ g.cells.length) :
    ∃ lg, merge receiver sender listSize coreDiff divisor g n p
        = some ⟨g.cells.take (receiver * listSize)
              ++ mergeLists
                  (slice g.cells (receiver * listSize) (sender * listSize))
                  (slice g.cells (sender * listSize)
                    (sendEndOf sender listSize coreDiff n p ext))
              ++ g.cells.drop (sendEndOf sender listSize coreDiff n p ext), lg⟩ ∧
      ∀ j ∈ lg, j ∈ g.log ∨
        (receiver * listSize ≤ j ∧ j < sendEndOf sender listSize coreDiff n p ext) := by
  have h1 := sendStart_eq_recEnd receiver sender listSize coreDiff hS
  have h2 := sendEndOf_ge sender listSize coreDiff n p ext
  have h3 := scratchSize_eq receiver sender listSize coreDiff divisor n p ext hS hdiv
  unfold merge
  simp only [hext]
  rw [h3, ← h1]
  generalize sendEndOf sender listSize coreDiff n p ext = sendEnd at *
  generalize sender * listSize = sendStart at *
  generalize receiver * listSize = recStart at *
  obtain ⟨gc, glog⟩ := g
  simp only at hend ⊢
  have hsz : sendEnd - recStart = (sendStart - recStart) + (sendEnd - sendStart) + 0 := by omega
  obtain ⟨s, g1, l1, e1, e2, e3, e4, e5⟩ :=
    mergeLoop_drain_spec gc sendStart sendEnd (by omega) hend 0
      ((sendStart - recStart) + (sendEnd - sendStart)) [] recStart sendStart glog []
      (by omega) (by omega) (Nat.le_refl _)
  simp only [List.map_nil, List.nil_append, List.length_nil, ← hsz] at e1 e5
  obtain ⟨g1c, g1log⟩ := g1
  obtain ⟨l1c, l1log⟩ := l1
  simp only at e3 e4 e5
  subst e3 e5
  have hlen : (mergeLists (slice g1c recStart sendStart) (slice g1c sendStart sendEnd)).length
      = sendEnd - recStart := by
    rw [mergeLists_length, slice_length _ _ _ (by omega), slice_length _ _ _ hend]; omega
  have hco := copyOut_spec (sendEnd - recStart)
    (mergeLists (slice g1c recStart sendStart) (slice g1c sendStart sendEnd))
    (List.replicate 0 none) l1log ⟨g1c, g1log⟩ 0 recStart (by omega) (by simp; omega)
  have hsl : slice (mergeLists (slice g1c recStart sendStart) (slice g1c sendStart sendEnd)) 0
      (0 + (sendEnd - recStart))
      = mergeLists (slice g1c recStart sendStart) (slice g1c sendStart sendEnd) := by
    generalize mergeLists (slice g1c recStart sendStart) (slice g1c sendStart sendEnd) = q at hlen
    unfold slice
    simp only [List.drop_zero, Nat.zero_add, Nat.sub_zero]
    exact List.take_of_length_le (by omega)
  have e : recStart + (sendEnd - recStart) = sendEnd := by omega
  simp only [hsl, e] at hco
  refine ⟨(List.range' recStart (sendEnd - recStart)).reverse ++ g1log, ?_, ?_⟩
  · simp only [newInt, e1, e2, hco]
  · intro j hj
    simp only [List.mem_append, List.mem_reverse, List.mem_range'_1] at hj
    rcases hj with h | h
    · right; omega
    · rcases e4 j h with h | h | h
      · exact Or.inl h
      · right; omega
      · right; omega


/-! ## Replacing a part of a list -/

theorem getElem?_slice (buf : List Int) (a b i : Nat) :
    (slice buf a b)[i]? = if i < b - a then buf[a + i]? else none := by
  unfold slice
  rw [List.getElem?_take, List.getElem?_drop]

theorem splice_length (buf : List Int) (a b : Nat) (m : List Int) (hab : a ≤ b)
    (hb : b ≤ buf.length) (hm : m.length = b - a) : (splice buf a b m).length = buf.length := by
  simp [splice, hm]; omega

theorem getElem?_splice_lt (buf : List Int) (a b : Nat) (m : List Int) (j : Nat) (hj : j < a)
    (ha : a ≤ buf.length) : (splice buf a b m)[j]? = buf[j]? := by
  unfold splice
  rw [List.append_assoc, List.getElem?_append_left (by simp; omega), List.getElem?_take]
  simp [hj]

theorem getElem?_splice_ge (buf : List Int) (a b : Nat) (m : List Int) (j : Nat) (hj : b ≤ j)
    (hab : a ≤ b) (hb : b ≤ buf.length) (hm : m.length = b - a) :
    (splice buf a b m)[j]? = buf[j]? := by
  unfold splice
  have hl : (buf.take a ++ m).length = b := by simp [hm]; omega
  rw [List.getElem?_append_right (by omega), hl, List.getElem?_drop]
  congr 1; omega

theorem slice_splice_before (buf : List Int) (a b : Nat) (m : List Int) (x y : Nat)
    (hy : y ≤ a) (ha : a ≤ buf.length) :
    slice (splice buf a b m) x y = slice buf x y := by
  apply List.ext_getElem?
  intro i
  rw [getElem?_slice, getElem?_slice]
  split
  · exact getElem?_splice_lt buf a b m (x + i) (by omega) ha
  · rfl

theorem slice_splice_after (buf : List Int) (a b : Nat) (m : List Int) (x y : Nat)
    (hx : b ≤ x) (hab : a ≤ b) (hb : b ≤ buf.length) (hm : m.length = b - a) :
    slice (splice buf a b m) x y = slice buf x y := by
  apply List.ext_getElem?
  intro i
  rw [getElem?_slice, getElem?_slice]
  split
  · exact getElem?_splice_ge buf a b m (x + i) (by omega) hab hb hm
  · rfl

theorem mainRemain_eq (n p remain : Nat) (h : mainRemain n p = some remain) :
    0 < p ∧ remain = n % p := by
  unfold mainRemain at h
  by_cases hp : p = 0
  · simp [hp] at h
  · simp only [hp, if_false, Option.some.injEq] at h
    refine ⟨Nat.pos_of_ne_zero hp, ?_⟩
    by_cases h0 : n % p = 0
    · simp [h0] at h; omega
    · simp [h0] at h; omega

theorem listSizeOf_inner (n p remain r : Nat) (hr : r + 1 < p) :
    listSizeOf n p remain r = n / p := by
  have : ¬ ((r : Int) = (p : Int) - 1) := by omega
  simp [listSizeOf, isLastWithRemain, this]

theorem myStartOf_inner (n p remain r : Nat) (hr : r + 1 < p) :
    myStartOf n p remain r = n / p * r := by
  have : ¬ ((r : Int) = (p : Int) - 1) := by omega
  simp [myStartOf, listSizeOf, isLastWithRemain, this]

theorem listSizeOf_last (n p r : Nat) (hr : r + 1 = p) :
    listSizeOf n p (n % p) r = n / p + n % p := by
  have : (r : Int) = (p : Int) - 1 := by omega
  by_cases h0 : n % p = 0
  · simp [listSizeOf, isLastWithRemain, h0]
  · simp [listSizeOf, isLastWithRemain, h0, this]

theorem myStartOf_last (n p r : Nat) (hr : r + 1 = p) :
    myStartOf n p (n % p) r = n / p * r := by
  have : (r : Int) = (p : Int) - 1 := by omega
  by_cases h0 : n % p = 0
  · simp [myStartOf, listSizeOf, isLastWithRemain, h0]
  · simp [myStartOf, listSizeOf, isLastWithRemain, h0, this]

theorem myStartOf_eq (n p r : Nat) (hr : r < p) : myStartOf n p (n % p) r = n / p * r := by
  by_cases h : r + 1 = p
  · exact myStartOf_last n p r h
  · exact myStartOf_inner n p _ r (by omega)

theorem myEndOf_inner (n p remain r : Nat) (hr : r + 1 < p) :
    myEndOf n p remain r = n / p * (r + 1) := by
  rw [myEndOf, myStartOf_inner n p remain r hr, listSizeOf_inner n p remain r hr]; ring

theorem myEndOf_last (n p r : Nat) (hr : r + 1 = p) : myEndOf n p (n % p) r = n := by
  rw [myEndOf, myStartOf_last n p r hr, listSizeOf_last n p r hr]
  have h := Nat.div_add_mod n p
  have e : p * (n / p) = n / p * r + n / p := by subst hr; ring
  omega

theorem myEndOf_le (n p r : Nat) (hr : r < p) : myEndOf n p (n % p) r ≤ n := by
  by_cases h : r + 1 = p
  · exact le_of_eq (myEndOf_last n p r h)
  · rw [myEndOf_inner n p _ r (by omega)]
    have h1 := Nat.div_add_mod n p
    have h2 : n / p * (r + 1) ≤ n / p * p := Nat.mul_le_mul_left _ (by omega)
    have h3 : n / p * p = p * (n / p) := Nat.mul_comm _ _
    omega

theorem myStart_lt_myEnd (n p r : Nat) (hnp : p ≤ n) (hr : r < p) :
    myStartOf n p (n % p) r < myEndOf n p (n % p) r := by
  have hq : 0 < n / p := Nat.div_pos hnp (by omega)
  by_cases h : r + 1 = p
  · rw [myEndOf, listSizeOf_last n p r h]; omega
  · rw [myEndOf, listSizeOf_inner n p _ r (by omega)]; omega

/-- C6: for `N ≥ P ≥ 1` and the remainder computed by `main`, each rank below
`P - 1` sorts `[r * (N/P), (r+1) * (N/P))`, of size `N/P`; rank `P - 1` sorts
`[(P-1) * (N/P), N)`, of size `N/P + N mod P`; the ranges start at `0`, each
one ends where the next begins, they do not overlap, lie in `[0, N)` and
every index below `N` belongs to one of them. -/
theorem chunk_ranges (n p remain : Nat) (hp : 1 ≤ p) (hnp : p ≤ n)
    (hrem : mainRemain n p = some remain) :
    remain = n % p ∧
    (∀ r, r + 1 < p →
      myStartOf n p remain r = r * (n / p) ∧ myEndOf n p remain r = (r + 1) * (n / p) ∧
        listSizeOf n p remain r = n / p) ∧
    (myStartOf n p remain (p - 1) = (p - 1) * (n / p) ∧ myEndOf n p remain (p - 1) = n ∧
      listSizeOf n p remain (p - 1) = n / p + n % p) ∧
    myStartOf n p remain 0 = 0 ∧
    (∀ r, r + 1 < p → myEndOf n p remain r = myStartOf n p remain (r + 1)) ∧
    (∀ r s, r < s → s < p → myEndOf n p remain r ≤ myStartOf n p remain s) ∧
    (∀ r, r < p → myStartOf n p remain r < myEndOf n p remain r ∧ myEndOf n p remain r ≤ n) ∧
    (∀ i, i < n → ∃ r, r < p ∧ myStartOf n p remain r ≤ i ∧ i < myEndOf n p remain r) := by
  obtain ⟨_, hr⟩ := mainRemain_eq n p remain hrem
  subst hr
  have hq : 0 < n / p := Nat.div_pos hnp (by omega)
  refine ⟨rfl, ?_, ?_, ?_, ?_, ?_, ?_, ?_⟩
  · intro r hr
    rw [myStartOf_inner n p _ r hr, myEndOf_inner n p _ r hr, listSizeOf_inner n p _ r hr]
    exact ⟨Nat.mul_comm _ _, Nat.mul_comm _ _, rfl⟩
  · rw [myStartOf_last n p (p - 1) (by omega), myEndOf_last n p (p - 1) (by omega),
      listSizeOf_last n p (p - 1) (by omega)]
    exact ⟨Nat.mul_comm _ _, rfl, rfl⟩
  · rw [myStartOf_eq n p 0 (by omega)]; rfl
  · intro r hr
    rw [myEndOf_inner n p _ r hr, myStartOf_eq n p (r + 1) hr]
  · intro r s hrs hs
    rw [myEndOf_inner n p _ r (by omega), myStartOf_eq n p s hs]
    exact Nat.mul_le_mul_left _ (by omega)
  · intro r hr
    exact ⟨myStart_lt_myEnd n p r hnp hr, myEndOf_le n p r hr⟩
  · intro i hi
    by_cases hlast : n / p * (p - 1) ≤ i
    · refine ⟨p - 1, by omega, ?_, ?_⟩
      · rw [myStartOf_eq n p (p - 1) (by omega)]; exact hlast
      · rw [myEndOf_last n p (p - 1) (by omega)]; exact hi
    · have hlt : i / (n / p) < p - 1 := by
        apply Nat.div_lt_of_lt_mul
        omega
      refine ⟨i / (n / p), by omega, ?_, ?_⟩
      · rw [myStartOf_eq n p _ (by omega)]
        exact Nat.mul_div_le i (n / p)
      · rw [myEndOf_inner n p _ _ (by omega)]
        exact Nat.lt_mul_div_succ i hq

/-- C6 at `N = 6`, `P = 4`: ranks `0 .. 2` have size `1`, rank `3` has size `3`
and starts at index `3`. -/
theorem chunk_ranges_witness :
    listSizeOf 6 4 2 0 = 1 ∧ listSizeOf 6 4 2 1 = 1 ∧ listSizeOf 6 4 2 2 = 1 ∧
      listSizeOf 6 4 2 3 = 3 ∧ myStartOf 6 4 2 3 = 3 ∧ myEndOf 6 4 2 3 = 6 := by
  have h := chunk_ranges 6 4 2 (by decide) (by decide) (by decide)
  obtain ⟨_, h1, h2, _⟩ := h
  have a0 := h1 0 (by decide)
  have a1 := h1 1 (by decide)
  have a2 := h1 2 (by decide)
  simp only [Nat.reduceDiv, Nat.reduceMod, Nat.reduceSub, Nat.reduceMul, Nat.reduceAdd] at *
  exact ⟨a0.2.2, a1.2.2, a2.2.2, h2.2.2, h2.1, h2.2.1⟩


/-! ## One local sort and one merge as replacements of a part of the buffer -/

theorem localSortChunk_step (n p r : Nat) (g : Arr Int) (hp : 0 < p) (hr : r < p)
    (hlen : g.cells.length = n) :
    ∃ lg, localSortChunk n p g (n % p) r
        = some ⟨splice g.cells (myStartOf n p (n % p) r) (myEndOf n p (n % p) r)
            (qsort compare
              (slice g.cells (myStartOf n p (n % p) r) (myEndOf n p (n % p) r))), lg⟩ ∧
      ∀ j ∈ lg, j ∈ g.log ∨
        (myStartOf n p (n % p) r ≤ j ∧ j < myEndOf n p (n % p) r) := by
  have hend : myEndOf n p (n % p) r ≤ g.cells.length := by
    rw [hlen]; exact myEndOf_le n p r hr
  refine ⟨_, localSortChunk_spec n p g (n % p) r hp hend, ?_⟩
  intro j hj
  simp only [List.mem_append, List.mem_reverse, List.mem_range'_1] at hj
  unfold myEndOf
  rcases hj with h | h | h
  · right; omega
  · right; omega
  · exact Or.inl h

theorem senderHasRemain_some (sender coreDiff n p : Nat) (hp : 0 < p) :
    senderHasRemain sender coreDiff n p
      = some (decide ((sender : Int) = (p : Int) - (coreDiff : Int) ∧ n % p ≠ 0)) := by
  unfold senderHasRemain
  have hp0 : p ≠ 0 := by omega
  by_cases h : (sender : Int) = (p : Int) - (coreDiff : Int)
  · simp [h, hp0]
  · simp [h]

theorem sendEndOf_decide (sender listSize coreDiff n p : Nat) :
    sendEndOf sender listSize coreDiff n p
        (decide ((sender : Int) = (p : Int) - (coreDiff : Int) ∧ n % p ≠ 0))
      = sender * listSize + listSize * coreDiff
          + (if (sender : Int) = (p : Int) - (coreDiff : Int) ∧ n % p ≠ 0 then n % p else 0) := by
  unfold sendEndOf
  by_cases h : (sender : Int) = (p : Int) - (coreDiff : Int) ∧ n % p ≠ 0
  · simp [h]
  · simp only [h, decide_False, if_false, Nat.add_zero]; rfl

/-! ## Claims on the local sort of one thread -/

/-- C8: for `N ≥ P ≥ 1`, a rank `r < P` and a buffer of `N` integers, the
local sort returns; every index of the buffer it reads or writes lies in the
rank's range, the buffer keeps its length and every element outside the range
is unchanged. -/
theorem localSort_chunk_frame (n p remain r : Nat) (buf : List Int) (hp : 1 ≤ p) (hnp : p ≤ n)
    (hrem : mainRemain n p = some remain) (hr : r < p) (hlen : buf.length = n) :
    ∃ g1, localSortChunk n p ⟨buf, []⟩ remain r = some g1 ∧
      (∀ j ∈ g1.log, myStartOf n p remain r ≤ j ∧ j < myEndOf n p remain r) ∧
      g1.cells.length = n ∧
      ∀ j, j < myStartOf n p remain r ∨ myEndOf n p remain r ≤ j → g1.cells[j]? = buf[j]? := by
  obtain ⟨_, hrm⟩ := mainRemain_eq n p remain hrem
  subst hrm
  obtain ⟨lg, h1, h2⟩ := localSortChunk_step n p r ⟨buf, []⟩ hp hr hlen
  have hse := myStart_lt_myEnd n p r hnp hr
  have hend := myEndOf_le n p r hr
  have hql : (qsort compare (slice buf (myStartOf n p (n % p) r) (myEndOf n p (n % p) r))).length
      = myEndOf n p (n % p) r - myStartOf n p (n % p) r := by
    rw [qsort_length, slice_length _ _ _ (by omega)]
  refine ⟨_, h1, ?_, ?_, ?_⟩
  · intro j hj
    rcases h2 j hj with h | h
    · simp at h
    · exact h
  · simp only
    rw [splice_length _ _ _ _ (by omega) (by omega) hql, hlen]
  · intro j hj
    have hb : myEndOf n p (n % p) r ≤ buf.length := by omega
    rcases hj with h | h
    · exact getElem?_splice_lt buf _ _ _ j h (by omega)
    · exact getElem?_splice_ge buf _ _ _ j h (by omega) hb hql

/-- C8 at `N = 6`, `P = 4`, rank `3` and the buffer `[5, 3, 8, 1, 9, 2]`. -/
theorem localSort_chunk_frame_witness :
    ∃ g1, localSortChunk 6 4 ⟨[5, 3, 8, 1, 9, 2], []⟩ 2 3 = some g1 ∧
      (∀ j ∈ g1.log, myStartOf 6 4 2 3 ≤ j ∧ j < myEndOf 6 4 2 3) ∧
      g1.cells.length = 6 ∧
      ∀ j, j < myStartOf 6 4 2 3 ∨ myEndOf 6 4 2 3 ≤ j →
        g1.cells[j]? = ([5, 3, 8, 1, 9, 2] : List Int)[j]? :=
  localSort_chunk_frame 6 4 2 3 [5, 3, 8, 1, 9, 2] (by decide) (by decide) (by decide)
    (by decide) (by decide)


/-! ## Claims on `merge` -/

/-- C9: for a call `merge(R, S, listSize, distance, divisor, buf, N, P)` with
`S = R + distance`, `divisor = 2 * distance` and `P ≥ 1` on a buffer of `N`
integers, whose receiver range `[R*listSize, R*listSize + listSize*distance)`
and sender range (extended by `N mod P` when `S = P - distance` and
`N mod P ≠ 0`) lie inside the buffer and are each non-decreasing, the call
returns and the span from the receiver's start to the sender's end is then
non-decreasing, a permutation of what it held before, and of length
`listSize * divisor` plus the extension. -/
theorem merge_postcondition (receiver sender listSize coreDiff divisor : Nat) (g : Arr Int)
    (n p : Nat) (hp : 1 ≤ p) (hS : sender = receiver + coreDiff)
    (hdiv : divisor = 2 * coreDiff) (hlen : g.cells.length = n)
    (hin : sender * listSize + listSize * coreDiff
        + (if (sender : Int) = (p : Int) - (coreDiff : Int) ∧ n % p ≠ 0 then n % p else 0) ≤ n)
    (hrec : (slice g.cells (receiver * listSize)
        (receiver * listSize + listSize * coreDiff)).Sorted (· ≤ ·))
    (hsend : (slice g.cells (sender * listSize)
        (sender * listSize + listSize * coreDiff
          + (if (sender : Int) = (p : Int) - (coreDiff : Int) ∧ n % p ≠ 0 then n % p else 0))).Sorted
        (· ≤ ·)) :
    ∃ g1, merge receiver sender listSize coreDiff divisor g n p = some g1 ∧
      (slice g1.cells (receiver * listSize)
        (sender * listSize + listSize * coreDiff
          + (if (sender : Int) = (p : Int) - (coreDiff : Int) ∧ n % p ≠ 0 then n % p else 0))).Sorted
        (· ≤ ·) ∧
      (slice g1.cells (receiver * listSize)
        (sender * listSize + listSize * coreDiff
          + (if (sender : Int) = (p : Int) - (coreDiff : Int) ∧ n % p ≠ 0 then n % p else 0))).Perm
        (slice g.cells (receiver * listSize)
          (sender * listSize + listSize * coreDiff
            + (if (sender : Int) = (p : Int) - (coreDiff : Int) ∧ n % p ≠ 0 then n % p
                else 0))) ∧
      (slice g1.cells (receiver * listSize)
        (sender * listSize + listSize * coreDiff
          + (if (sender : Int) = (p : Int) - (coreDiff : Int) ∧ n % p ≠ 0 then n % p
              else 0))).length
        = listSize * divisor
          + (if (sender : Int) = (p : Int) - (coreDiff : Int) ∧ n % p ≠ 0 then n % p else 0) := by
  have hext := senderHasRemain_some sender coreDiff n p hp
  have hse := sendEndOf_decide sender listSize coreDiff n p
  have h1 := sendStart_eq_recEnd receiver sender listSize coreDiff hS
  have h2 : listSize * divisor = listSize * coreDiff + listSize * coreDiff := by
    subst hdiv; ring
  obtain ⟨lg, hm, _⟩ := merge_spec receiver sender listSize coreDiff divisor g n p _ hext hS hdiv
    (by rw [hse, hlen]; exact hin)
  rw [hse] at hm
  rw [← h1] at hrec
  generalize (if (sender : Int) = (p : Int) - (coreDiff : Int) ∧ n % p ≠ 0 then n % p else 0)
    = x at *
  generalize hE : sender * listSize + listSize * coreDiff + x = sendEnd at *
  have hle : sender * listSize ≤ sendEnd := by omega
  have hml : (mergeLists (slice g.cells (receiver * listSize) (sender * listSize))
      (slice g.cells (sender * listSize) sendEnd)).length = sendEnd - receiver * listSize := by
    rw [mergeLists_length, slice_length _ _ _ (by omega), slice_length _ _ _ (by omega)]
    omega
  have hsl : slice (g.cells.take (receiver * listSize)
      ++ mergeLists (slice g.cells (receiver * listSize) (sender * listSize))
          (slice g.cells (sender * listSize) sendEnd)
      ++ g.cells.drop sendEnd) (receiver * listSize) sendEnd
      = mergeLists (slice g.cells (receiver * listSize) (sender * listSize))
          (slice g.cells (sender * listSize) sendEnd) :=
    slice_splice g.cells _ _ _ (by omega) (by omega) hml
  refine ⟨_, hm, ?_, ?_, ?_⟩
  · simp only [hsl]
    exact mergeLists_sorted _ _ hrec hsend
  · simp only [hsl]
    rw [← slice_append g.cells (receiver * listSize) (sender * listSize) sendEnd (by omega) hle]
    exact mergeLists_perm _ _
  · simp only [hsl]
    rw [hml]
    omega

/-- C9 at the second round of `N = 6`, `P = 4`: rank `0` merges `[3, 5]` with
the remainder-extended run `[1, 2, 8, 9]`. -/
theorem merge_postcondition_witness :
    ∃ g1, merge 0 2 1 2 4 ⟨[3, 5, 1, 2, 8, 9], []⟩ 6 4 = some g1 ∧
      (slice g1.cells (0 * 1)
        (2 * 1 + 1 * 2
          + (if ((2 : Nat) : Int) = ((4 : Nat) : Int) - ((2 : Nat) : Int) ∧ 6 % 4 ≠ 0 then 6 % 4
              else 0))).Sorted (· ≤ ·) ∧
      (slice g1.cells (0 * 1)
        (2 * 1 + 1 * 2
          + (if ((2 : Nat) : Int) = ((4 : Nat) : Int) - ((2 : Nat) : Int) ∧ 6 % 4 ≠ 0 then 6 % 4
              else 0))).Perm
        (slice [3, 5, 1, 2, 8, 9] (0 * 1)
          (2 * 1 + 1 * 2
            + (if ((2 : Nat) : Int) = ((4 : Nat) : Int) - ((2 : Nat) : Int) ∧ 6 % 4 ≠ 0 then 6 % 4
                else 0))) ∧
      (slice g1.cells (0 * 1)
        (2 * 1 + 1 * 2
          + (if ((2 : Nat) : Int) = ((4 : Nat) : Int) - ((2 : Nat) : Int) ∧ 6 % 4 ≠ 0 then 6 % 4
              else 0))).length
        = 1 * 4
          + (if ((2 : Nat) : Int) = ((4 : Nat) : Int) - ((2 : Nat) : Int) ∧ 6 % 4 ≠ 0 then 6 % 4
              else 0) :=
  merge_postcondition 0 2 1 2 4 ⟨[3, 5, 1, 2, 8, 9], []⟩ 6 4 (by decide) (by decide) (by decide)
    (by decide) (by decide) (by decide) (by decide)


/-- C10: for a call `merge(R, S, listSize, distance, divisor, buf, N, P)` as
`localSort` makes it (`S = R + distance`, `divisor = 2 * distance`, `P ≥ 1`)
whose two ranges lie inside the buffer of `N` integers, the receiver range
ends where the sender range starts, the call returns, every index of the
buffer it reads or writes lies in the span from the receiver's start to the
sender's end, and every element outside that span is unchanged. -/
theorem merge_frame (receiver sender listSize coreDiff divisor : Nat) (buf : List Int)
    (n p : Nat) (hp : 1 ≤ p) (hS : sender = receiver + coreDiff)
    (hdiv : divisor = 2 * coreDiff) (hlen : buf.length = n)
    (hin : sender * listSize + listSize * coreDiff
        + (if (sender : Int) = (p : Int) - (coreDiff : Int) ∧ n % p ≠ 0 then n % p else 0) ≤ n) :
    receiver * listSize + listSize * coreDiff = sender * listSize ∧
    ∃ g1, merge receiver sender listSize coreDiff divisor ⟨buf, []⟩ n p = some g1 ∧
      (∀ j ∈ g1.log, receiver * listSize ≤ j ∧
        j < sender * listSize + listSize * coreDiff
          + (if (sender : Int) = (p : Int) - (coreDiff : Int) ∧ n % p ≠ 0 then n % p else 0)) ∧
      g1.cells.length = n ∧
      ∀ j, (j < receiver * listSize ∨
          sender * listSize + listSize * coreDiff
            + (if (sender : Int) = (p : Int) - (coreDiff : Int) ∧ n % p ≠ 0 then n % p else 0)
            ≤ j) →
        g1.cells[j]? = buf[j]? := by
  have hext := senderHasRemain_some sender coreDiff n p hp
  have hse := sendEndOf_decide sender listSize coreDiff n p
  have h1 := sendStart_eq_recEnd receiver sender listSize coreDiff hS
  obtain ⟨lg, hm, hlog⟩ := merge_spec receiver sender listSize coreDiff divisor ⟨buf, []⟩ n p _
    hext hS hdiv (by rw [hse]; simp only; omega)
  rw [hse] at hm hlog
  simp only at hm hlog
  generalize (if (sender : Int) = (p : Int) - (coreDiff : Int) ∧ n % p ≠ 0 then n % p else 0)
    = x at *
  generalize hE : sender * listSize + listSize * coreDiff + x = sendEnd at *
  have hml : (mergeLists (slice buf (receiver * listSize) (sender * listSize))
      (slice buf (sender * listSize) sendEnd)).length = sendEnd - receiver * listSize := by
    rw [mergeLists_length, slice_length _ _ _ (by omega), slice_length _ _ _ (by omega)]
    omega
  refine ⟨h1.symm, _, hm, ?_, ?_, ?_⟩
  · intro j hj
    rcases hlog j hj with h | h
    · simp at h
    · exact h
  · exact (splice_length buf _ _ _ (by omega) (by omega) hml).trans hlen
  · intro j hj
    rcases hj with h | h
    · exact getElem?_splice_lt buf _ _ _ j h (by omega)
    · exact getElem?_splice_ge buf _ _ _ j h (by omega) (by omega) hml

/-- C10 at the first round of `N = 6`, `P = 4`: rank `2` merges `[8]` with the
remainder-extended run `[1, 2, 9]`. -/
theorem merge_frame_witness :
    2 * 1 + 1 * 1 = 3 * 1 ∧
    ∃ g1, merge 2 3 1 1 2 ⟨[3, 5, 8, 1, 2, 9], []⟩ 6 4 = some g1 ∧
      (∀ j ∈ g1.log, 2 * 1 ≤ j ∧
        j < 3 * 1 + 1 * 1
          + (if ((3 : Nat) : Int) = ((4 : Nat) : Int) - ((1 : Nat) : Int) ∧ 6 % 4 ≠ 0 then 6 % 4
              else 0)) ∧
      g1.cells.length = 6 ∧
      ∀ j, (j < 2 * 1 ∨
          3 * 1 + 1 * 1
            + (if ((3 : Nat) : Int) = ((4 : Nat) : Int) - ((1 : Nat) : Int) ∧ 6 % 4 ≠ 0 then 6 % 4
                else 0)
            ≤ j) →
        g1.cells[j]? = ([3, 5, 8, 1, 2, 9] : List Int)[j]? :=
  merge_frame 2 3 1 1 2 [3, 5, 8, 1, 2, 9] 6 4 (by decide) (by decide) (by decide) (by decide)
    (by decide)


/-! ## Run boundaries -/

theorem bnd_self (n p : Nat) : bnd n p p = n := by
  simp [bnd]

theorem bnd_lt (n p x : Nat) (hx : x < p) : bnd n p x = n / p * x := by
  have : ¬ (x = p) := by omega
  simp [bnd, this]

theorem sendEnd_bnd (n p d R : Nat) (hR : R + 2 * d ≤ p) :
    (R + d) * (n / p) + n / p * d
        + (if ((R + d : Nat) : Int) = (p : Int) - (d : Int) ∧ n % p ≠ 0 then n % p else 0)
      = bnd n p (R + 2 * d) := by
  have h1 := Nat.div_add_mod n p
  have e1 : (R + d) * (n / p) + n / p * d = n / p * (R + 2 * d) := by ring
  rw [e1]
  by_cases h : R + 2 * d = p
  · have hc : ((R + d : Nat) : Int) = (p : Int) - (d : Int) := by omega
    rw [h, bnd_self]
    have e2 : n / p * p = p * (n / p) := Nat.mul_comm _ _
    by_cases h0 : n % p = 0
    · simp only [h0, ne_eq, not_true_eq_false, and_false, if_false]; omega
    · simp only [hc, h0, ne_eq, not_false_eq_true, and_self, if_true]; omega
  · have hc : ¬ (((R + d : Nat) : Int) = (p : Int) - (d : Int)) := by omega
    rw [bnd_lt n p _ (by omega)]
    simp only [hc, false_and, if_false, Nat.add_zero]

/-- C1 fails on the code: with `N = 8` and `P = 6` every access is in bounds,
the round loop stops after the rounds for `divisor = 2` and `divisor = 4`, and
the runs `[0, 4)` and `[4, 8)` are never merged with each other. -/
theorem six_threads_leave_buffer_unsorted :
    (parallelMergeSort 8 6 [7, 6, 5, 4, 3, 2, 1, 0]).map (fun g => g.cells)
        = some [4, 5, 6, 7, 0, 1, 2, 3] ∧
      ¬ List.Sorted (· ≤ ·) ([4, 5, 6, 7, 0, 1, 2, 3] : List Int) := by
  constructor
  · decide
  · decide

/-- C2 fails on the code: with `N = 10` and `P = 3` the local sorts succeed,
rank `2` is a receiver of the first round with `listSize = 4`, and its call
`merge(2, 3, 4, 1, 2, ..)` compares `globalList[8]` with `globalList[12]`,
outside the buffer of ten elements: the run has no defined result. -/
theorem three_threads_access_out_of_bounds :
    (localSortPhase 10 3 1 3 ⟨[9, 8, 7, 6, 5, 4, 3, 2, 1, 0], []⟩).map (fun g => g.cells)
        = some [7, 8, 9, 4, 5, 6, 0, 1, 2, 3] ∧
      listSizeOf 10 3 1 2 = 4 ∧
      ([4, 5, 6, 7, 8, 9, 0, 1, 2, 3] : List Int)[12]? = none ∧
      (mergeBody ⟨⟨[4, 5, 6, 7, 8, 9, 0, 1, 2, 3], []⟩, newInt 8, 0, 8, 12⟩).map
        (fun s => s.i) = none ∧
      (merge 2 3 4 1 2 ⟨[4, 5, 6, 7, 8, 9, 0, 1, 2, 3], []⟩ 10 3).map (fun g => g.cells) = none ∧
      (parallelMergeSort 10 3 [9, 8, 7, 6, 5, 4, 3, 2, 1, 0]).map (fun g => g.cells) = none := by
  refine ⟨?_, ?_, ?_, ?_, ?_, ?_⟩ <;> decide

/-- C4 fails on the code: the buffer `[0, 1, 2]` is non-decreasing, and with
`N = 3`, `P = 3` rank `2` calls `merge(2, 3, 1, 1, 2, ..)`, which reads
`globalList[3]`, outside the buffer: the run has no defined result. -/
theorem sorted_input_access_out_of_bounds :
    List.Sorted (· ≤ ·) ([0, 1, 2] : List Int) ∧
      ([0, 1, 2] : List Int)[3]? = none ∧
      (mergeBody ⟨⟨[0, 1, 2], []⟩, newInt 2, 0, 2, 3⟩).map (fun s => s.i) = none ∧
      (merge 2 3 1 1 2 ⟨[0, 1, 2], []⟩ 3 3).map (fun g => g.cells) = none ∧
      (parallelMergeSort 3 3 [0, 1, 2]).map (fun g => g.cells) = none := by
  refine ⟨?_, ?_, ?_, ?_, ?_⟩ <;> decide

/-- The second scenario of C3, `N = 6`, `P = 4` with remainder `2`, on the
buffer `[5, 3, 8, 1, 9, 2]`: all six elements end up sorted. -/
theorem four_threads_six_elements :
    (parallelMergeSort 6 4 [5, 3, 8, 1, 9, 2]).map (fun g => g.cells)
      = some [1, 2, 3, 5, 8, 9] := by
  decide

theorem mergeRounds_eq_roundLoop (n p remain : Nat) :
    ∀ (fuel divisor coreDifference : Nat) (g : Arr Int),
      mergeRounds n p remain fuel divisor coreDifference g
        = (roundLoop (fun d cd x => mergeRound n p remain d cd p x) p fuel divisor
            coreDifference g).map Prod.fst := by
  intro fuel
  induction fuel with
  | zero =>
    intro divisor cd g
    by_cases h : divisor ≤ p <;> simp [mergeRounds, roundLoop, h]
  | succ fuel ih =>
    intro divisor cd g
    by_cases h : divisor ≤ p
    · simp only [mergeRounds, roundLoop, h, if_true]
      cases hb : mergeRound n p remain divisor cd p g with
      | none => rfl
      | some g1 =>
        simp only [ih]
        cases roundLoop (fun d cd x => mergeRound n p remain d cd p x) p fuel (divisor * 2)
          (cd * 2) g1 <;> rfl
    · simp [mergeRounds, roundLoop, h]

theorem roundLoop_count {α : Type} (body : Nat → Nat → α → Option α) (p : Nat) :
    ∀ (fuel divisor coreDifference : Nat) (g g1 : α) (k last : Nat),
      roundLoop body p fuel divisor coreDifference g = some (g1, k, last) →
      last = divisor * 2 ^ k ∧ p < last ∧ (1 ≤ k → divisor * 2 ^ (k - 1) ≤ p) := by
  intro fuel
  induction fuel with
  | zero =>
    intro divisor cd g g1 k last h
    by_cases hc : divisor ≤ p
    · simp [roundLoop, hc] at h
    · simp only [roundLoop, hc, if_false, Option.some.injEq, Prod.mk.injEq] at h
      obtain ⟨_, hk, hl⟩ := h
      subst hk hl
      exact ⟨by simp, by omega, by omega⟩
  | succ fuel ih =>
    intro divisor cd g g1 k last h
    by_cases hc : divisor ≤ p
    · simp only [roundLoop, hc, if_true] at h
      cases hb : body divisor cd g with
      | none => simp [hb] at h
      | some g2 =>
        simp only [hb] at h
        cases hr : roundLoop body p fuel (divisor * 2) (cd * 2) g2 with
        | none => simp [hr] at h
        | some r =>
          obtain ⟨g3, k3, l3⟩ := r
          simp only [hr, Option.some.injEq, Prod.mk.injEq] at h
          obtain ⟨_, hk, hl⟩ := h
          subst hk hl
          obtain ⟨e1, e2, e3⟩ := ih (divisor * 2) (cd * 2) g2 g3 k3 l3 hr
          refine ⟨?_, e2, ?_⟩
          · rw [e1, Nat.pow_succ]; ring
          · intro _
            rcases Nat.eq_zero_or_pos k3 with h0 | hpos
            · subst h0; simpa using hc
            · have := e3 hpos
              have e : k3 + 1 - 1 = (k3 - 1) + 1 := by omega
              rw [e, Nat.pow_succ]
              calc divisor * (2 ^ (k3 - 1) * 2) = divisor * 2 * 2 ^ (k3 - 1) := by ring
                _ ≤ p := this
    · simp only [roundLoop, hc, if_false, Option.some.injEq, Prod.mk.injEq] at h
      obtain ⟨_, hk, hl⟩ := h
      subst hk hl
      exact ⟨by simp, by omega, by omega⟩

theorem roundLoop_returns {α : Type} (body : Nat → Nat → α → Option α) (p : Nat)
    (hbody : ∀ d cd x, ∃ y, body d cd x = some y) :
    ∀ (fuel divisor coreDifference : Nat) (g : α), p < divisor * 2 ^ fuel →
      ∃ r, roundLoop body p fuel divisor coreDifference g = some r := by
  intro fuel
  induction fuel with
  | zero =>
    intro divisor cd g h
    have hc : ¬ divisor ≤ p := by simpa using h
    exact ⟨(g, 0, divisor), by simp only [roundLoop, hc, if_false]⟩
  | succ fuel ih =>
    intro divisor cd g h
    by_cases hc : divisor ≤ p
    · obtain ⟨y, hy⟩ := hbody divisor cd g
      obtain ⟨r, hr⟩ := ih (divisor * 2) (cd * 2) y (by
        rw [Nat.pow_succ] at h
        calc p < divisor * (2 ^ fuel * 2) := h
          _ = divisor * 2 * 2 ^ fuel := by ring)
      obtain ⟨g3, k3, l3⟩ := r
      exact ⟨(g3, k3 + 1, l3), by simp only [roundLoop, hc, if_true, hy, hr]⟩
    · exact ⟨(g, 0, divisor), by simp only [roundLoop, hc, if_false]⟩

/-- C13, as the claim states it, fails: for `P = 3` the loop makes one pass
(`divisor = 2`) and stops at `divisor = 4`, while `⌈log2 3⌉ = 2`. -/
theorem round_count_three_counterexample :
    roundLoop (fun _ _ (x : Unit) => some x) 3 3 2 1 () = some ((), 1, 4) ∧
      Nat.clog 2 3 = 2 := by
  constructor
  · decide
  · norm_num [Nat.clog]

/-- C13, amended: for `P ≥ 1` the round loop of `localSort` is the loop
`roundLoop` around the round of all threads; started with `divisor = 2` and
`coreDifference = 1` it stops at the first `divisor = 2 ^ (k + 1) > P`, after
exactly `k = ⌊log2 P⌋` passes, whatever the body does, and `P` passes are
enough for it to return when every pass returns. -/
theorem round_count (p : Nat) (hp : 1 ≤ p) :
    (∀ (n remain fuel : Nat) (g : Arr Int),
      mergeRounds n p remain fuel 2 1 g
        = (roundLoop (fun d cd x => mergeRound n p remain d cd p x) p fuel 2 1 g).map
            Prod.fst) ∧
    (∀ (α : Type) (body : Nat → Nat → α → Option α) (fuel : Nat) (g g1 : α) (k last : Nat),
      roundLoop body p fuel 2 1 g = some (g1, k, last) →
      k = Nat.log 2 p ∧ last = 2 ^ (k + 1) ∧ p < last ∧ 2 ^ k ≤ p) ∧
    (∀ (α : Type) (body : Nat → Nat → α → Option α) (g : α),
      (∀ d cd x, ∃ y, body d cd x = some y) →
      ∃ g1, roundLoop body p p 2 1 g = some (g1, Nat.log 2 p, 2 ^ (Nat.log 2 p + 1))) := by
  have key : ∀ (α : Type) (body : Nat → Nat → α → Option α) (fuel : Nat) (g g1 : α)
      (k last : Nat), roundLoop body p fuel 2 1 g = some (g1, k, last) →
      k = Nat.log 2 p ∧ last = 2 ^ (k + 1) ∧ p < last ∧ 2 ^ k ≤ p := by
    intro α body fuel g g1 k last h
    obtain ⟨e1, e2, e3⟩ := roundLoop_count body p fuel 2 1 g g1 k last h
    have hl : last = 2 ^ (k + 1) := by rw [e1, Nat.pow_succ]; ring
    have hk : 2 ^ k ≤ p := by
      rcases Nat.eq_zero_or_pos k with h0 | hpos
      · subst h0; simpa using hp
      · have := e3 hpos
        have e : k = (k - 1) + 1 := by omega
        rw [e, Nat.pow_succ, Nat.mul_comm]; exact this
    refine ⟨?_, hl, e2, hk⟩
    exact (Nat.log_eq_of_pow_le_of_lt_pow hk (by rw [← hl]; exact e2)).symm
  refine ⟨fun n remain fuel g => mergeRounds_eq_roundLoop n p remain fuel 2 1 g, key, ?_⟩
  intro α body g hbody
  obtain ⟨r, hr⟩ := roundLoop_returns body p hbody p 2 1 g (by
    have := Nat.lt_two_pow p
    omega)
  obtain ⟨g1, k, last⟩ := r
  obtain ⟨hk, hl, _, _⟩ := key α body p g g1 k last hr
  subst hk
  exact ⟨g1, by rw [hr, hl]⟩

/-- C13 amended, at `P = 6`: two passes, the loop stops at `divisor = 8`. -/
theorem round_count_witness :
    (∀ (n remain fuel : Nat) (g : Arr Int),
      mergeRounds n 6 remain fuel 2 1 g
        = (roundLoop (fun d cd x => mergeRound n 6 remain d cd 6 x) 6 fuel 2 1 g).map
            Prod.fst) ∧
    (∀ (α : Type) (body : Nat → Nat → α → Option α) (fuel : Nat) (g g1 : α) (k last : Nat),
      roundLoop body 6 fuel 2 1 g = some (g1, k, last) →
      k = Nat.log 2 6 ∧ last = 2 ^ (k + 1) ∧ 6 < last ∧ 2 ^ k ≤ 6) ∧
    (∀ (α : Type) (body : Nat → Nat → α → Option α) (g : α),
      (∀ d cd x, ∃ y, body d cd x = some y) →
      ∃ g1, roundLoop body 6 6 2 1 g = some (g1, Nat.log 2 6, 2 ^ (Nat.log 2 6 + 1))) :=
  round_count 6 (by decide)


/-! ## `checkSort` -/

theorem checkSortLoop_spec (cells : List Int) :
    ∀ (k i : Nat) (lg : List Nat), (k = 0 ∨ i + k < cells.length) →
      ∃ out lg1, checkSortLoop k ⟨cells, lg⟩ i = some (out, ⟨cells, lg1⟩) ∧
        (out = [Report.sorted] ∨ out = [Report.notSorted]) ∧
        (out = [Report.sorted] ↔
          ∀ j a b, i ≤ j → j < i + k → cells[j]? = some a → cells[j + 1]? = some b → a ≤ b) := by
  intro k
  induction k with
  | zero =>
    intro i lg _
    refine ⟨[Report.sorted], lg, rfl, Or.inl rfl, ?_⟩
    constructor
    · intro _ j a b h1 h2; omega
    · intro _; rfl
  | succ k ih =>
    intro i lg hk
    have hi : i + (k + 1) < cells.length := by omega
    have h0 : i < cells.length := by omega
    have h1 : i + 1 < cells.length := by omega
    have ea : cells[i]? = some cells[i] := List.getElem?_eq_getElem h0
    have eb : cells[i + 1]? = some cells[i + 1] := List.getElem?_eq_getElem h1
    by_cases hgt : cells[i] > cells[i + 1]
    · refine ⟨[Report.notSorted], (i + 1) :: i :: lg, ?_, Or.inr rfl, ?_⟩
      · simp only [checkSortLoop, read_some ⟨cells, lg⟩ i _ ea,
          read_some ⟨cells, i :: lg⟩ (i + 1) _ eb, hgt, if_true]
      · constructor
        · intro h; exact absurd h (by decide)
        · intro h
          have := h i _ _ (Nat.le_refl i) (by omega) ea eb
          omega
    · obtain ⟨out, lg1, e1, e2, e3⟩ := ih (i + 1) ((i + 1) :: i :: lg) (by omega)
      refine ⟨out, lg1, ?_, e2, ?_⟩
      · simp only [checkSortLoop, read_some ⟨cells, lg⟩ i _ ea,
          read_some ⟨cells, i :: lg⟩ (i + 1) _ eb, hgt, if_false]
        exact e1
      · rw [e3]
        constructor
        · intro h j a b hj1 hj2 ha hb
          by_cases hji : j = i
          · subst hji
            rw [ea] at ha; rw [eb] at hb
            simp only [Option.some.injEq] at ha hb
            subst ha hb
            omega
          · exact h j a b (by omega) (by omega) ha hb
        · intro h j a b hj1 hj2 ha hb
          exact h j a b (by omega) (by omega) ha hb

/-- C14: for a buffer of at least `n` integers `checkSort` returns, prints
exactly one line, `SORTED` or `NOT SORTED`, prints `SORTED` if and only if
`buf[i] ≤ buf[i+1]` for every `i` with `i + 1 < n`, prints `NOT SORTED`
otherwise, and leaves the buffer as it was. -/
theorem checkSort_reports (buf : List Int) (n : Nat) (hn : n ≤ buf.length) :
    ∃ out lg, checkSort ⟨buf, []⟩ n = some (out, ⟨buf, lg⟩) ∧
      (out = [Report.sorted] ∨ out = [Report.notSorted]) ∧
      (out = [Report.sorted] ↔
        ∀ i a b, i + 1 < n → buf[i]? = some a → buf[i + 1]? = some b → a ≤ b) ∧
      (out = [Report.notSorted] ↔
        ¬ ∀ i a b, i + 1 < n → buf[i]? = some a → buf[i + 1]? = some b → a ≤ b) := by
  obtain ⟨out, lg, e1, e2, e3⟩ := checkSortLoop_spec buf (n - 1) 0 [] (by omega)
  have e4 : out = [Report.sorted] ↔
      ∀ i a b, i + 1 < n → buf[i]? = some a → buf[i + 1]? = some b → a ≤ b := by
    rw [e3]
    constructor
    · intro h i a b hi ha hb; exact h i a b (Nat.zero_le i) (by omega) ha hb
    · intro h j a b _ hj ha hb; exact h j a b (by omega) ha hb
  refine ⟨out, lg, e1, e2, e4, ?_⟩
  rw [← e4]
  rcases e2 with h | h
  · subst h; simp
  · subst h; simp

/-- C14 on the buffers `[1, 2, 2, 5]` and `[1, 3, 2, 5]` with `n = 4`. -/
theorem checkSort_reports_witness :
    ((checkSort ⟨[1, 2, 2, 5], []⟩ 4).map Prod.fst = some [Report.sorted] ∧
      (checkSort ⟨[1, 3, 2, 5], []⟩ 4).map Prod.fst = some [Report.notSorted]) ∧
    ∃ out lg, checkSort ⟨[1, 3, 2, 5], []⟩ 4 = some (out, ⟨[1, 3, 2, 5], lg⟩) ∧
      (out = [Report.sorted] ∨ out = [Report.notSorted]) ∧
      (out = [Report.sorted] ↔
        ∀ i a b, i + 1 < 4 → ([1, 3, 2, 5] : List Int)[i]? = some a →
          ([1, 3, 2, 5] : List Int)[i + 1]? = some b → a ≤ b) ∧
      (out = [Report.notSorted] ↔
        ¬ ∀ i a b, i + 1 < 4 → ([1, 3, 2, 5] : List Int)[i]? = some a →
          ([1, 3, 2, 5] : List Int)[i + 1]? = some b → a ≤ b) :=
  ⟨⟨by decide, by decide⟩, checkSort_reports [1, 3, 2, 5] 4 (by decide)⟩


/-! ## The spans of the receivers of one round -/

theorem listSizeOf_ge (n p remain r : Nat) : n / p ≤ listSizeOf n p remain r := by
  unfold listSizeOf; split <;> omega

theorem sendEndAt_eq (n p remain d r : Nat) :
    sendEndAt n p remain d r
      = sendStartAt n p remain d r + listSizeOf n p remain r * d
          + (if ((r + d : Nat) : Int) = (p : Int) - (d : Int) ∧ n % p ≠ 0 then n % p else 0) := by
  unfold sendEndAt sendStartAt
  exact sendEndOf_decide (r + d) (listSizeOf n p remain r) d n p

theorem sendStartAt_eq (n p remain d r : Nat) :
    sendStartAt n p remain d r = recStartAt n p remain r + listSizeOf n p remain r * d := by
  unfold sendStartAt recStartAt; ring

theorem sendEndAt_inner (n p remain d r : Nat) (hr : r + 2 * d < p) (hd : 1 ≤ d) :
    sendEndAt n p remain d r = n / p * (r + 2 * d) := by
  have hc : ¬ (((r + d : Nat) : Int) = (p : Int) - (d : Int)) := by omega
  rw [sendEndAt_eq, sendStartAt_eq, recStartAt, listSizeOf_inner n p remain r (by omega)]
  simp only [hc, false_and, if_false, Nat.add_zero]
  ring

theorem two_d_step (d r1 r2 : Nat) (h1 : r1 % (2 * d) = 0)
    (h2 : r2 % (2 * d) = 0) (hlt : r1 < r2) : r1 + 2 * d ≤ r2 := by
  obtain ⟨a, ha⟩ := Nat.dvd_of_mod_eq_zero h1
  obtain ⟨b, hb⟩ := Nat.dvd_of_mod_eq_zero h2
  have hab : a < b := by
    have : 2 * d * a < 2 * d * b := by omega
    exact Nat.lt_of_mul_lt_mul_left this
  have h3 : 2 * d * (a + 1) ≤ 2 * d * b := Nat.mul_le_mul_left _ hab
  have e : 2 * d * (a + 1) = 2 * d * a + 2 * d := by ring
  omega

theorem span_before (n p remain d r1 r2 : Nat) (hd : 1 ≤ d) (h1 : r1 % (2 * d) = 0)
    (h2 : r2 % (2 * d) = 0) (hlt : r1 < r2) (hr2 : r2 < p) :
    sendEndAt n p remain d r1 ≤ recStartAt n p remain r2 := by
  have hstep := two_d_step d r1 r2 h1 h2 hlt
  rw [sendEndAt_inner n p remain d r1 (by omega) hd, recStartAt]
  have h3 : n / p * (r1 + 2 * d) ≤ n / p * r2 := Nat.mul_le_mul_left _ hstep
  have h4 : n / p * r2 ≤ listSizeOf n p remain r2 * r2 :=
    Nat.mul_le_mul_right _ (listSizeOf_ge n p remain r2)
  have e : r2 * listSizeOf n p remain r2 = listSizeOf n p remain r2 * r2 := Nat.mul_comm _ _
  omega

theorem span_eq_bnd (n p d r : Nat) (hd : 1 ≤ d) (hr : r + 2 * d ≤ p) :
    recStartAt n p (n % p) r = bnd n p r ∧ sendStartAt n p (n % p) d r = bnd n p (r + d) ∧
      sendEndAt n p (n % p) d r = bnd n p (r + 2 * d) := by
  have hL : listSizeOf n p (n % p) r = n / p := listSizeOf_inner n p _ r (by omega)
  refine ⟨?_, ?_, ?_⟩
  · rw [recStartAt, hL, bnd_lt n p r (by omega)]; exact Nat.mul_comm _ _
  · rw [sendStartAt, hL, bnd_lt n p (r + d) (by omega)]; exact Nat.mul_comm _ _
  · rw [sendEndAt_eq, sendStartAt, hL, ← sendEnd_bnd n p d r hr]

theorem wrapInt32_eq (x : Int) (h0 : 0 ≤ x) (h1 : x ≤ 2147483647) : wrapInt32 x = x := by
  unfold wrapInt32; omega

theorem wrapInt32_natCast (x : Nat) (h : x ≤ 2147483647) : wrapInt32 (x : Int) = x := by
  unfold wrapInt32; omega

theorem spanAt32_eq (n p remain d r : Nat) (hp : 1 ≤ p) (hnp : p ≤ n) (hn : n ≤ 2147483647)
    (hdiv : 2 * d ≤ p) (hb : sendEndAt n p remain d r ≤ n) :
    spanAt32 n p remain d r
      = some (((recStartAt n p remain r : Nat) : Int), ((sendEndAt n p remain d r : Nat) : Int)) := by
  have hdp : (0 : Int) ≤ (p : Int) - (d : Int) ∧ (p : Int) - (d : Int) ≤ 2147483647 := by omega
  have hp0 : ¬ ((p : Int) = 0) := by omega
  have hq : 1 ≤ n / p := (Nat.one_le_div_iff (by omega)).2 hnp
  have hL : 1 ≤ listSizeOf n p remain r := le_trans hq (listSizeOf_ge n p remain r)
  unfold spanAt32 mergeSpan32 recStartAt
  unfold sendEndAt sendEndOf at hb ⊢
  generalize listSizeOf n p remain r = L at hL hb ⊢
  have hbase : (r + d) * L + L * d ≤ n := by
    split at hb <;> omega
  have b1 : r * L ≤ (r + d) * L := Nat.mul_le_mul_right _ (by omega)
  have b2 : r + d ≤ (r + d) * L := Nat.le_mul_of_pos_right _ hL
  have hmp : n % p < p := Nat.mod_lt _ (by omega)
  have b3 : L * d ≤ n := le_trans (Nat.le_add_left _ _) hbase
  have b4 : (r + d) * L ≤ n := le_trans (Nat.le_add_right _ _) hbase
  have e1 : wrapInt32 ((r : Int) + (d : Int)) = ((r + d : Nat) : Int) := by
    rw [← Nat.cast_add]; exact wrapInt32_natCast _ (le_trans b2 (le_trans b4 hn))
  have e2 : wrapInt32 ((r : Int) * (L : Int)) = ((r * L : Nat) : Int) := by
    rw [← Nat.cast_mul]; exact wrapInt32_natCast _ (le_trans b1 (le_trans b4 hn))
  have e3 : wrapInt32 (((r + d : Nat) : Int) * (L : Int)) = (((r + d) * L : Nat) : Int) := by
    rw [← Nat.cast_mul]; exact wrapInt32_natCast _ (le_trans b4 hn)
  have e4 : wrapInt32 ((L : Int) * (d : Int)) = ((L * d : Nat) : Int) := by
    rw [← Nat.cast_mul]; exact wrapInt32_natCast _ (le_trans b3 hn)
  have e5 : wrapInt32 ((((r + d) * L : Nat) : Int) + ((L * d : Nat) : Int))
      = (((r + d) * L + L * d : Nat) : Int) := by
    rw [← Nat.cast_add]; exact wrapInt32_natCast _ (le_trans hbase hn)
  have e6 := wrapInt32_eq _ hdp.1 hdp.2
  have e7 : Int.tmod (n : Int) (p : Int) = ((n % p : Nat) : Int) := (Int.ofNat_tmod n p).symm
  simp only [e1, e2, e3, e4, e5, e6, e7]
  by_cases hc : ((r + d : Nat) : Int) = (p : Int) - (d : Int)
  · by_cases hm : n % p = 0
    · have hd : decide (((r + d : Nat) : Int) = (p : Int) - (d : Int) ∧ n % p ≠ 0) = false :=
        decide_eq_false (fun h => h.2 hm)
      have hm2 : ¬ (((n % p : Nat) : Int) ≠ 0) := by
        rw [hm]; exact fun h => h rfl
      rw [if_pos hc, if_neg hp0, if_neg hm2, hd]
      rfl
    · have hd : decide (((r + d : Nat) : Int) = (p : Int) - (d : Int) ∧ n % p ≠ 0) = true :=
        decide_eq_true ⟨hc, hm⟩
      have hm2 : ((n % p : Nat) : Int) ≠ 0 := Int.natCast_ne_zero.2 hm
      rw [hd] at hb
      rw [if_pos rfl] at hb
      have e8 : wrapInt32 ((((r + d) * L + L * d : Nat) : Int) + ((n % p : Nat) : Int))
          = (((r + d) * L + L * d + n % p : Nat) : Int) := by
        rw [← Nat.cast_add]; exact wrapInt32_natCast _ (le_trans hb hn)
      rw [if_pos hc, if_neg hp0, if_pos hm2, e8, hd]
      rfl
  · have hd : decide (((r + d : Nat) : Int) = (p : Int) - (d : Int) ∧ n % p ≠ 0) = false :=
      decide_eq_false (fun h => hc h.1)
    rw [if_neg hc, hd]
    rfl

/-- Receivers whose spans lie inside a buffer of at most `2147483647` cells:
for `N ≥ P ≥ 1`, the remainder computed by `main` and a round with
`divisor = 2 * distance ≤ P`, the `int` arithmetic of `merge` does not
overflow, and the spans `[recStart, sendEnd)` of two different receivers below
`P` have no index in common. -/
theorem receiver_spans_in_buffer_disjoint (n p remain d r1 r2 : Nat) (hp : 1 ≤ p)
    (hnp : p ≤ n) (hn : n ≤ 2147483647) (_hrem : mainRemain n p = some remain) (hd : 1 ≤ d)
    (hdiv : 2 * d ≤ p) (hr1 : r1 < p) (hr2 : r2 < p) (h1 : r1 % (2 * d) = 0)
    (h2 : r2 % (2 * d) = 0) (hne : r1 ≠ r2) (hb1 : sendEndAt n p remain d r1 ≤ n)
    (hb2 : sendEndAt n p remain d r2 ≤ n) :
    ∃ s1 s2 : Int × Int, spanAt32 n p remain d r1 = some s1 ∧
      spanAt32 n p remain d r2 = some s2 ∧
      ∀ i : Int, ¬ ((s1.1 ≤ i ∧ i < s1.2) ∧ (s2.1 ≤ i ∧ i < s2.2)) := by
  refine ⟨_, _, spanAt32_eq n p remain d r1 hp hnp hn hdiv hb1,
    spanAt32_eq n p remain d r2 hp hnp hn hdiv hb2, ?_⟩
  intro i hi
  simp only at hi
  rcases Nat.lt_or_gt_of_ne hne with h | h
  · have := span_before n p remain d r1 r2 hd h1 h2 h hr2
    omega
  · have := span_before n p remain d r2 r1 hd h2 h1 h hr1
    omega

/-- The second round of `N = 8`, `P = 4`: the receiver `0` has the span
`[0, 8)`; the first round has the receivers `0` and `2` with the spans `[0, 4)`
and `[4, 8)`. -/
theorem receiver_spans_in_buffer_example :
    spanAt32 8 4 0 2 0 = some (0, 8) ∧ spanAt32 8 4 0 1 0 = some (0, 4) ∧
      spanAt32 8 4 0 1 2 = some (4, 8) := by
  decide

/-- C11 fails on the code.  For `N = 131072`, `P = 65537` the last rank
`65536` has `listSize = 65536` and is a receiver of the first round
(`divisor = 2`); its call `merge(65536, 65537, 65536, 1, 2, ..)` computes
`recStart = 65536 * 65536`, which is `4294967296` and does not fit an `int`:
reduced to 32 bits it is `0`, and the span of the call is `[0, 131072)`, the
whole buffer, which contains the span `[0, 2)` of the receiver `0`.  For
`N = 2147483135`, `P = 2049` the same happens in the round with distance
`1024`: the receiver `2048` computes the span `[-2144339968, 6287360)`, which
meets the span `[0, 2146433024)` of the receiver `0`. -/
theorem receiver_spans_overlap_after_overflow :
    (mainRemain 131072 65537 = some 65535 ∧ 2 * 1 ≤ 65537 ∧
      0 % (2 * 1) = 0 ∧ 65536 % (2 * 1) = 0 ∧ 65536 < 65537 ∧
      listSizeOf 131072 65537 65535 0 = 1 ∧ listSizeOf 131072 65537 65535 65536 = 65536 ∧
      recStartAt 131072 65537 65535 65536 = 4294967296 ∧
      spanAt32 131072 65537 65535 1 0 = some (0, 2) ∧
      spanAt32 131072 65537 65535 1 65536 = some (0, 131072)) ∧
    (mainRemain 2147483135 2049 = some 2048 ∧ 2 * 1024 ≤ 2049 ∧
      0 % (2 * 1024) = 0 ∧ 2048 % (2 * 1024) = 0 ∧ 2048 < 2049 ∧
      listSizeOf 2147483135 2049 2048 0 = 1048063 ∧
      listSizeOf 2147483135 2049 2048 2048 = 1050111 ∧
      recStartAt 2147483135 2049 2048 2048 = 2150627328 ∧
      spanAt32 2147483135 2049 2048 1024 0 = some (0, 2146433024) ∧
      spanAt32 2147483135 2049 2048 1024 2048 = some (-2144339968, 6287360)) := by
  decide

/-- C12 fails on the code: in the first round of `N = 10`, `P = 3` the
receivers are the ranks `0` and `2`, with the spans `[0, 6)` and `[8, 16)`:
the indices `6` and `7` are in no span, the second span runs past the end of
the buffer, and the call of `merge` by rank `2` has no defined result. -/
theorem three_threads_spans_do_not_tile :
    mainRemain 10 3 = some 1 ∧
    (∀ r, r < 3 → (r % 2 = 0 ↔ r = 0 ∨ r = 2)) ∧
    (recStartAt 10 3 1 0 = 0 ∧ sendEndAt 10 3 1 1 0 = 6) ∧
    (recStartAt 10 3 1 2 = 8 ∧ sendEndAt 10 3 1 1 2 = 16) ∧
    (∀ r, r < 3 → r % 2 = 0 → ¬ (recStartAt 10 3 1 r ≤ 6 ∧ 6 < sendEndAt 10 3 1 1 r)) ∧
    10 < sendEndAt 10 3 1 1 2 ∧
    (mergeStep 10 3 1 2 1 ⟨[4, 5, 6, 7, 8, 9, 0, 1, 2, 3], []⟩ 2).map (fun g => g.cells)
      = none := by
  refine ⟨by decide, by decide, by decide, by decide, by decide, by decide, by decide⟩

/-- C15 fails on the code: for `N = 10`, `P = 3` the even rank `2` is a
receiver of the first round; its sender `3` is not a rank, its receiver range
is `[8, 12)` while its chunk is `[6, 10)`, and its sender range starts at `12`,
past the end of the buffer. -/
theorem last_rank_of_odd_pool_is_receiver :
    mainRemain 10 3 = some 1 ∧ 2 % 2 = 0 ∧ 2 < 3 ∧ ¬ (2 + 1 < 3) ∧
    listSizeOf 10 3 1 2 = 4 ∧
    (myStartOf 10 3 1 2 = 6 ∧ myEndOf 10 3 1 2 = 10) ∧
    (recStartAt 10 3 1 2 = 8 ∧ recStartAt 10 3 1 2 + listSizeOf 10 3 1 2 * 1 = 12) ∧
    (sendStartAt 10 3 1 1 2 = 12 ∧ sendEndAt 10 3 1 1 2 = 16) := by
  refine ⟨by decide, by decide, by decide, by decide, by decide, by decide, by decide,
    by decide⟩


/-! ## Progress of the two-pointer loop -/

theorem read_inv {α : Type} (a : Arr α) (i : Nat) (v : α) (a1 : Arr α)
    (h : a.read i = some (v, a1)) : a.cells[i]? = some v ∧ a1 = ⟨a.cells, i :: a.log⟩ := by
  unfold Arr.read at h
  cases hc : a.cells[i]? with
  | none => simp [hc] at h
  | some w =>
    simp only [hc, Option.some.injEq, Prod.mk.injEq] at h
    exact ⟨by rw [h.1], h.2.symm⟩

theorem write_inv {α : Type} (a : Arr α) (i : Nat) (v : α) (a1 : Arr α)
    (h : a.write i v = some a1) :
    i < a.cells.length ∧ a1 = ⟨a.cells.set i v, i :: a.log⟩ := by
  unfold Arr.write at h
  by_cases hc : i < a.cells.length
  · simp only [hc, if_true, Option.some.injEq] at h
    exact ⟨hc, h.symm⟩
  · simp [hc] at h

theorem mergeBody_eq_plainElse (s : MergeState) : mergeBody s = mergeBodyPlainElse s := by
  unfold mergeBody mergeBodyPlainElse
  cases s.globalList.read s.tempRecStart with
  | none => rfl
  | some r1 =>
    obtain ⟨a, g1⟩ := r1
    simp only
    cases g1.read s.tempSendStart with
    | none => rfl
    | some r2 =>
      obtain ⟨b, g2⟩ := r2
      simp only
      by_cases hab : a ≤ b
      · simp only [hab, if_true]
      · have hge : a ≥ b := by omega
        simp only [hab, hge, if_true, if_false]

theorem mergeLoop_eq_plainElse (recEnd sendEnd : Nat) :
    ∀ (fuel : Nat) (s : MergeState),
      mergeLoop recEnd sendEnd fuel s = mergeLoopPlainElse recEnd sendEnd fuel s := by
  intro fuel
  induction fuel with
  | zero => intro s; rfl
  | succ fuel ih =>
    intro s
    simp only [mergeLoop, mergeLoopPlainElse, mergeBody_eq_plainElse, ih]

theorem merge_eq_plainElse (receiver sender listSize coreDiff divisor : Nat) (g : Arr Int)
    (n p : Nat) :
    merge receiver sender listSize coreDiff divisor g n p
      = mergePlainElse receiver sender listSize coreDiff divisor g n p := by
  simp only [merge, mergePlainElse, mergeLoop_eq_plainElse]

theorem mergeBody_progress (s s1 : MergeState) (h : mergeBody s = some s1) :
    s1.i = s.i + 1 ∧ s1.localList.log = s.i :: s.localList.log ∧
    s1.globalList.cells = s.globalList.cells ∧
    ∃ a b, s.globalList.cells[s.tempRecStart]? = some a ∧
      s.globalList.cells[s.tempSendStart]? = some b ∧
      ((a ≤ b ∧ s1.localList.cells = s.localList.cells.set s.i (some a) ∧
          s1.tempRecStart = s.tempRecStart + 1 ∧ s1.tempSendStart = s.tempSendStart) ∨
        (b < a ∧ s1.localList.cells = s.localList.cells.set s.i (some b) ∧
          s1.tempRecStart = s.tempRecStart ∧ s1.tempSendStart = s.tempSendStart + 1)) := by
  rw [mergeBody_eq_plainElse] at h
  unfold mergeBodyPlainElse at h
  cases h1 : s.globalList.read s.tempRecStart with
  | none => simp [h1] at h
  | some r1 =>
    obtain ⟨a, g1⟩ := r1
    simp only [h1] at h
    obtain ⟨ha, hg1⟩ := read_inv _ _ _ _ h1
    cases h2 : g1.read s.tempSendStart with
    | none => simp [h2] at h
    | some r2 =>
      obtain ⟨b, g2⟩ := r2
      simp only [h2] at h
      obtain ⟨hb, hg2⟩ := read_inv _ _ _ _ h2
      subst hg1
      simp only at hb hg2
      by_cases hab : a ≤ b
      · simp only [hab, if_true] at h
        cases h3 : s.localList.write s.i (some a) with
        | none => simp [h3] at h
        | some l1 =>
          simp only [h3, Option.some.injEq] at h
          obtain ⟨_, hl1⟩ := write_inv _ _ _ _ h3
          subst h hl1 hg2
          exact ⟨rfl, rfl, rfl, a, b, ha, hb, Or.inl ⟨hab, rfl, rfl, rfl⟩⟩
      · simp only [hab, if_false] at h
        cases h3 : s.localList.write s.i (some b) with
        | none => simp [h3] at h
        | some l1 =>
          simp only [h3, Option.some.injEq] at h
          obtain ⟨_, hl1⟩ := write_inv _ _ _ _ h3
          subst h hl1 hg2
          exact ⟨rfl, rfl, rfl, a, b, ha, hb, Or.inr ⟨by omega, rfl, rfl, rfl⟩⟩

theorem mergeBody_pointers (s s1 : MergeState) (h : mergeBody s = some s1) :
    (s1.tempRecStart = s.tempRecStart + 1 ∧ s1.tempSendStart = s.tempSendStart) ∨
      (s1.tempRecStart = s.tempRecStart ∧ s1.tempSendStart = s.tempSendStart + 1) := by
  obtain ⟨_, _, _, a, b, _, _, h4⟩ := mergeBody_progress s s1 h
  rcases h4 with ⟨_, _, h5, h6⟩ | ⟨_, _, h5, h6⟩
  · exact Or.inl ⟨h5, h6⟩
  · exact Or.inr ⟨h5, h6⟩

theorem mergeLoop_fuel_stable (recEnd sendEnd : Nat) :
    ∀ (t fuel : Nat) (s : MergeState), s.tempRecStart ≤ recEnd → s.tempSendStart ≤ sendEnd →
      (recEnd - s.tempRecStart) + (sendEnd - s.tempSendStart) ≤ t → t ≤ fuel →
      mergeLoop recEnd sendEnd fuel s = mergeLoop recEnd sendEnd t s := by
  intro t
  induction t with
  | zero =>
    intro fuel s ha hb ht _
    have hc : ¬ (s.tempRecStart ≠ recEnd ∧ s.tempSendStart ≠ sendEnd) := by
      intro h; omega
    rw [mergeLoop_done _ _ _ _ hc, mergeLoop_done _ _ _ _ hc]
  | succ t ih =>
    intro fuel s ha hb ht hf
    obtain ⟨f, hf1⟩ : ∃ f, fuel = f + 1 := ⟨fuel - 1, by omega⟩
    subst hf1
    by_cases hc : s.tempRecStart ≠ recEnd ∧ s.tempSendStart ≠ sendEnd
    · cases hb1 : mergeBody s with
      | none =>
        simp only [mergeLoop]
        rw [if_pos hc, if_pos hc, hb1]
      | some s1 =>
        have hrec : mergeLoop recEnd sendEnd f s1 = mergeLoop recEnd sendEnd t s1 := by
          rcases mergeBody_pointers s s1 hb1 with ⟨h5, h6⟩ | ⟨h5, h6⟩
          · exact ih f s1 (by omega) (by omega) (by omega) (by omega)
          · exact ih f s1 (by omega) (by omega) (by omega) (by omega)
        simp only [mergeLoop]
        rw [if_pos hc, if_pos hc, hb1]
        exact hrec
    · rw [mergeLoop_done _ _ _ _ hc, mergeLoop_done _ _ _ _ hc]

theorem mergeLoop_one_exhausted (recEnd sendEnd : Nat) :
    ∀ (fuel : Nat) (s s1 : MergeState), s.tempRecStart < recEnd → s.tempSendStart < sendEnd →
      mergeLoop recEnd sendEnd fuel s = some s1 →
      (s1.tempRecStart = recEnd ∧ s1.tempSendStart < sendEnd) ∨
        (s1.tempRecStart < recEnd ∧ s1.tempSendStart = sendEnd) := by
  intro fuel
  induction fuel with
  | zero =>
    intro s s1 ha hb h
    have hc : s.tempRecStart ≠ recEnd ∧ s.tempSendStart ≠ sendEnd := ⟨by omega, by omega⟩
    simp only [mergeLoop] at h
    rw [if_pos hc] at h
    exact absurd h (by simp)
  | succ fuel ih =>
    intro s s1 ha hb h
    have hc : s.tempRecStart ≠ recEnd ∧ s.tempSendStart ≠ sendEnd := ⟨by omega, by omega⟩
    simp only [mergeLoop] at h
    rw [if_pos hc] at h
    cases hb1 : mergeBody s with
    | none => rw [hb1] at h; exact absurd h (by simp)
    | some s2 =>
      rw [hb1] at h
      simp only at h
      rcases mergeBody_pointers s s2 hb1 with ⟨h5, h6⟩ | ⟨h5, h6⟩
      · by_cases hend : s2.tempRecStart = recEnd
        · rw [mergeLoop_done _ _ _ _ (by simp [hend])] at h
          simp only [Option.some.injEq] at h
          subst h
          exact Or.inl ⟨hend, by omega⟩
        · exact ih s2 s1 (by omega) (by omega) h
      · by_cases hend : s2.tempSendStart = sendEnd
        · rw [mergeLoop_done _ _ _ _ (by simp [hend])] at h
          simp only [Option.some.injEq] at h
          subst h
          exact Or.inr ⟨by omega, hend⟩
        · exact ih s2 s1 (by omega) (by omega) h


theorem mergeLoop_returns (buf : List Int) (glog : List Nat)
    (recStart recEnd sendStart sendEnd size : Nat) (h1 : recStart ≤ recEnd)
    (h2 : recEnd ≤ buf.length) (h3 : sendStart ≤ sendEnd) (h4 : sendEnd ≤ buf.length)
    (h5 : (recEnd - recStart) + (sendEnd - sendStart) ≤ size) :
    ∃ s1, mergeLoop recEnd sendEnd ((recEnd - recStart) + (sendEnd - sendStart))
        ⟨⟨buf, glog⟩, newInt size, 0, recStart, sendStart⟩ = some s1 := by
  obtain ⟨s, _, _, e1, _⟩ := mergeLoop_drain_spec buf recEnd sendEnd h2 h4
    (size - ((recEnd - recStart) + (sendEnd - sendStart)))
    ((recEnd - recStart) + (sendEnd - sendStart)) [] recStart sendStart glog [] h1 h3
    (Nat.le_refl _)
  have e : recEnd - recStart + (sendEnd - sendStart)
      + (size - (recEnd - recStart + (sendEnd - sendStart))) = size := by omega
  simp only [List.map_nil, List.nil_append, List.length_nil, e] at e1
  exact ⟨s, e1⟩

/-- C17: in the two-pointer loop of `merge` the test `>=` succeeds whenever the
test `<=` fails; a pass that returns writes exactly one scratch cell, at index
`i`, increments `i` and advances exactly one pointer, the receiver's when
`buf[rec] ≤ buf[send]` (so on ties); `merge` equals `merge` with a plain
`else`; for ranges of non-negative length more than
`(recEnd - recStart) + (sendEnd - sendStart)` passes never change the outcome;
a loop that starts with both ranges non-empty ends with exactly one of them
exhausted; and with the ranges inside the buffer and room in the scratch list
the loop returns within that number of passes. -/
theorem merge_loop_progress :
    (∀ a b : Int, ¬ a ≤ b → a ≥ b) ∧
    (∀ s s1 : MergeState, mergeBody s = some s1 →
      s1.i = s.i + 1 ∧ s1.localList.log = s.i :: s.localList.log ∧
      s1.globalList.cells = s.globalList.cells ∧
      ∃ a b, s.globalList.cells[s.tempRecStart]? = some a ∧
        s.globalList.cells[s.tempSendStart]? = some b ∧
        ((a ≤ b ∧ s1.localList.cells = s.localList.cells.set s.i (some a) ∧
            s1.tempRecStart = s.tempRecStart + 1 ∧ s1.tempSendStart = s.tempSendStart) ∨
          (b < a ∧ s1.localList.cells = s.localList.cells.set s.i (some b) ∧
            s1.tempRecStart = s.tempRecStart ∧ s1.tempSendStart = s.tempSendStart + 1))) ∧
    (∀ (receiver sender listSize coreDiff divisor : Nat) (g : Arr Int) (n p : Nat),
      merge receiver sender listSize coreDiff divisor g n p
        = mergePlainElse receiver sender listSize coreDiff divisor g n p) ∧
    (∀ (recEnd sendEnd fuel : Nat) (s : MergeState),
      s.tempRecStart ≤ recEnd → s.tempSendStart ≤ sendEnd →
      (recEnd - s.tempRecStart) + (sendEnd - s.tempSendStart) ≤ fuel →
      mergeLoop recEnd sendEnd fuel s
        = mergeLoop recEnd sendEnd
            ((recEnd - s.tempRecStart) + (sendEnd - s.tempSendStart)) s) ∧
    (∀ (recEnd sendEnd fuel : Nat) (s s1 : MergeState),
      s.tempRecStart < recEnd → s.tempSendStart < sendEnd →
      mergeLoop recEnd sendEnd fuel s = some s1 →
      (s1.tempRecStart = recEnd ∧ s1.tempSendStart < sendEnd) ∨
        (s1.tempRecStart < recEnd ∧ s1.tempSendStart = sendEnd)) ∧
    (∀ (buf : List Int) (glog : List Nat) (recStart recEnd sendStart sendEnd size : Nat),
      recStart ≤ recEnd → recEnd ≤ buf.length → sendStart ≤ sendEnd → sendEnd ≤ buf.length →
      (recEnd - recStart) + (sendEnd - sendStart) ≤ size →
      ∃ s1, mergeLoop recEnd sendEnd ((recEnd - recStart) + (sendEnd - sendStart))
          ⟨⟨buf, glog⟩, newInt size, 0, recStart, sendStart⟩ = some s1) :=
  ⟨fun a b h => by omega,
    mergeBody_progress,
    merge_eq_plainElse,
    fun recEnd sendEnd fuel s ha hb hf =>
      mergeLoop_fuel_stable recEnd sendEnd _ fuel s ha hb (Nat.le_refl _) hf,
    fun recEnd sendEnd fuel s s1 => mergeLoop_one_exhausted recEnd sendEnd fuel s s1,
    mergeLoop_returns⟩

/-- C17 on the buffer `[1, 3, 2, 4]` with the ranges `[0, 2)` and `[2, 4)`:
the loop returns within four passes with exactly one range exhausted. -/
theorem merge_loop_progress_witness :
    ∃ s1, mergeLoop 2 4 ((2 - 0) + (4 - 2)) ⟨⟨[1, 3, 2, 4], []⟩, newInt 4, 0, 0, 2⟩ = some s1 ∧
      ((s1.tempRecStart = 2 ∧ s1.tempSendStart < 4) ∨
        (s1.tempRecStart < 2 ∧ s1.tempSendStart = 4)) := by
  obtain ⟨s1, h⟩ := merge_loop_progress.2.2.2.2.2 [1, 3, 2, 4] [] 0 2 2 4 4 (by decide)
    (by decide) (by decide) (by decide) (by decide)
  exact ⟨s1, h, merge_loop_progress.2.2.2.2.1 2 4 _ _ s1 (by decide) (by decide) h⟩


/-! ## The scratch list of `merge` -/

theorem copyIn_inv (k : Nat) : ∀ (g : Arr Int) (l : Arr (Option Int)) (src i : Nat)
    (g1 : Arr Int) (l1 : Arr (Option Int)), copyIn k g l src i = some (g1, l1) →
    l1.log = (List.range' i k).reverse ++ l.log := by
  induction k with
  | zero =>
    intro g l src i g1 l1 h
    simp only [copyIn, Option.some.injEq, Prod.mk.injEq] at h
    rw [← h.2]; simp
  | succ k ih =>
    intro g l src i g1 l1 h
    rw [copyIn] at h
    cases h1 : g.read src with
    | none => rw [h1] at h; exact absurd h (by simp)
    | some r1 =>
      obtain ⟨v, g2⟩ := r1
      rw [h1] at h
      simp only at h
      cases h2 : l.write i (some v) with
      | none => rw [h2] at h; exact absurd h (by simp)
      | some l2 =>
        rw [h2] at h
        simp only at h
        obtain ⟨_, hl2⟩ := write_inv _ _ _ _ h2
        rw [ih g2 l2 (src + 1) (i + 1) g1 l1 h, hl2]
        simp [List.range'_succ]

theorem mergeLoop_log (recEnd sendEnd : Nat) :
    ∀ (fuel : Nat) (s s1 : MergeState), s.tempRecStart ≤ recEnd → s.tempSendStart ≤ sendEnd →
      mergeLoop recEnd sendEnd fuel s = some s1 →
      ∃ m, s1.i = s.i + m ∧ s1.localList.log = (List.range' s.i m).reverse ++ s.localList.log ∧
        s1.tempRecStart + s1.tempSendStart = s.tempRecStart + s.tempSendStart + m ∧
        s1.tempRecStart ≤ recEnd ∧ s1.tempSendStart ≤ sendEnd ∧
        ¬ (s1.tempRecStart ≠ recEnd ∧ s1.tempSendStart ≠ sendEnd) := by
  intro fuel
  induction fuel with
  | zero =>
    intro s s1 ha hb h
    by_cases hc : s.tempRecStart ≠ recEnd ∧ s.tempSendStart ≠ sendEnd
    · simp only [mergeLoop] at h
      rw [if_pos hc] at h
      exact absurd h (by simp)
    · rw [mergeLoop_done _ _ _ _ hc] at h
      simp only [Option.some.injEq] at h
      subst h
      exact ⟨0, rfl, by simp, rfl, ha, hb, hc⟩
  | succ fuel ih =>
    intro s s1 ha hb h
    by_cases hc : s.tempRecStart ≠ recEnd ∧ s.tempSendStart ≠ sendEnd
    · simp only [mergeLoop] at h
      rw [if_pos hc] at h
      cases hb1 : mergeBody s with
      | none => rw [hb1] at h; exact absurd h (by simp)
      | some s2 =>
        rw [hb1] at h
        simp only at h
        obtain ⟨hi, hlog, _, _⟩ := mergeBody_progress s s2 hb1
        have hp := mergeBody_pointers s s2 hb1
        obtain ⟨m, e1, e2, e3, e4, e5, e6⟩ := ih s2 s1 (by omega) (by omega) h
        refine ⟨m + 1, by omega, ?_, by omega, e4, e5, e6⟩
        rw [e2, hlog, hi, List.range'_succ]
        simp
    · rw [mergeLoop_done _ _ _ _ hc] at h
      simp only [Option.some.injEq] at h
      subst h
      exact ⟨0, rfl, by simp, rfl, ha, hb, hc⟩

theorem mergeDrain_log (recEnd sendEnd : Nat) (s : MergeState) (g1 : Arr Int)
    (l1 : Arr (Option Int)) (ha : s.tempRecStart ≤ recEnd) (hb : s.tempSendStart ≤ sendEnd)
    (hc : ¬ (s.tempRecStart ≠ recEnd ∧ s.tempSendStart ≠ sendEnd))
    (h : mergeDrain recEnd sendEnd s = some (g1, l1)) :
    l1.log = (List.range' s.i ((recEnd - s.tempRecStart) + (sendEnd - s.tempSendStart))).reverse
      ++ s.localList.log := by
  unfold mergeDrain at h
  by_cases h1 : s.tempRecStart = recEnd ∧ s.tempSendStart ≠ sendEnd
  · rw [if_pos h1] at h
    rw [copyIn_inv _ _ _ _ _ _ _ h]
    have e : recEnd - s.tempRecStart + (sendEnd - s.tempSendStart) = sendEnd - s.tempSendStart := by
      omega
    rw [e]
  · rw [if_neg h1] at h
    by_cases h2 : s.tempSendStart = sendEnd ∧ s.tempRecStart ≠ recEnd
    · rw [if_pos h2] at h
      rw [copyIn_inv _ _ _ _ _ _ _ h]
      have e : recEnd - s.tempRecStart + (sendEnd - s.tempSendStart) = recEnd - s.tempRecStart := by
        omega
      rw [e]
    · rw [if_neg h2] at h
      simp only [Option.some.injEq, Prod.mk.injEq] at h
      have e : recEnd - s.tempRecStart + (sendEnd - s.tempSendStart) = 0 := by omega
      rw [e, ← h.2]
      simp

theorem mergeTraced_spec (receiver sender listSize coreDiff divisor : Nat) (g : Arr Int)
    (n p : Nat) (ext : Bool) (hext : senderHasRemain sender coreDiff n p = some ext)
    (hS : sender = receiver + coreDiff) (hdiv : divisor = 2 * coreDiff)
    (hend : sendEndOf sender listSize coreDiff n p ext ≤ g.cells.length) :
    ∃ l1 l2 g2, mergeTraced receiver sender listSize coreDiff divisor g n p = some (l1, l2, g2) ∧
      merge receiver sender listSize coreDiff divisor g n p = some g2 ∧
      l1.cells.length = scratchSize listSize divisor n p ext ∧
      (∀ i, i < scratchSize listSize divisor n p ext → ∃ v, l1.cells[i]? = some (some v)) ∧
      l1.log = (List.range (scratchSize listSize divisor n p ext)).reverse ∧
      l2.cells = l1.cells ∧
      l2.log = (List.range (scratchSize listSize divisor n p ext)).reverse ++ l1.log := by
  have h1 := sendStart_eq_recEnd receiver sender listSize coreDiff hS
  have h2 := sendEndOf_ge sender listSize coreDiff n p ext
  have h3 := scratchSize_eq receiver sender listSize coreDiff divisor n p ext hS hdiv
  unfold mergeTraced merge
  simp only [hext]
  rw [h3, ← h1]
  generalize sendEndOf sender listSize coreDiff n p ext = sendEnd at *
  generalize sender * listSize = sendStart at *
  generalize receiver * listSize = recStart at *
  obtain ⟨gc, glog⟩ := g
  simp only at hend ⊢
  have hsz : sendEnd - recStart = (sendStart - recStart) + (sendEnd - sendStart) + 0 := by omega
  obtain ⟨s, g1, l1, e1, e2, e3, e4, e5⟩ :=
    mergeLoop_drain_spec gc sendStart sendEnd (by omega) hend 0
      ((sendStart - recStart) + (sendEnd - sendStart)) [] recStart sendStart glog []
      (by omega) (by omega) (Nat.le_refl _)
  simp only [List.map_nil, List.nil_append, List.length_nil, ← hsz] at e1 e5
  obtain ⟨m, f1, f2, f3, f4, f5, f6⟩ := mergeLoop_log sendStart sendEnd _ _ s (by simp; omega)
    (by simp; omega) e1
  have f7 := mergeDrain_log sendStart sendEnd s g1 l1 f4 f5 f6 e2
  simp only at f1 f2 f3
  have hlog : l1.log = (List.range (sendEnd - recStart)).reverse := by
    rw [f7, f2, f1, List.range_eq_range', List.append_nil, ← List.reverse_append,
      List.range'_append_1]
    congr 2
    omega
  obtain ⟨g1c, g1log⟩ := g1
  obtain ⟨l1c, l1log⟩ := l1
  simp only at e3 e4 e5 hlog
  subst e3 e5
  have hlen : (mergeLists (slice g1c recStart sendStart) (slice g1c sendStart sendEnd)).length
      = sendEnd - recStart := by
    rw [mergeLists_length, slice_length _ _ _ (by omega), slice_length _ _ _ hend]; omega
  have hco := copyOut_spec (sendEnd - recStart)
    (mergeLists (slice g1c recStart sendStart) (slice g1c sendStart sendEnd))
    (List.replicate 0 none) l1log ⟨g1c, g1log⟩ 0 recStart (by omega) (by simp; omega)
  obtain ⟨g2, hco2⟩ : ∃ g2, copyOut (sendEnd - recStart)
      ⟨List.map some
          (mergeLists (slice g1c recStart sendStart) (slice g1c sendStart sendEnd))
          ++ List.replicate 0 none, l1log⟩ ⟨g1c, g1log⟩ 0 recStart
      = some (⟨List.map some
          (mergeLists (slice g1c recStart sendStart) (slice g1c sendStart sendEnd))
          ++ List.replicate 0 none, (List.range' 0 (sendEnd - recStart)).reverse ++ l1log⟩,
        g2) := ⟨_, hco⟩
  refine ⟨⟨List.map some
        (mergeLists (slice g1c recStart sendStart) (slice g1c sendStart sendEnd))
        ++ List.replicate 0 none, l1log⟩,
    ⟨List.map some
        (mergeLists (slice g1c recStart sendStart) (slice g1c sendStart sendEnd))
        ++ List.replicate 0 none, (List.range' 0 (sendEnd - recStart)).reverse ++ l1log⟩,
    g2, ?_, ?_, ?_, ?_, hlog, ?_, ?_⟩
  · simp only [newInt, e1, e2, hco2]
  · simp only [newInt, e1, e2, hco2]
  · simp [hlen]
  · intro i hi
    have hi2 : i < (mergeLists (slice g1c recStart sendStart)
        (slice g1c sendStart sendEnd)).length := by omega
    refine ⟨(mergeLists (slice g1c recStart sendStart) (slice g1c sendStart sendEnd))[i], ?_⟩
    simp [List.getElem?_eq_getElem hi2]
  · rfl
  · simp only [List.range_eq_range']


theorem scratchSize_decide (listSize divisor sender coreDiff n p : Nat) :
    scratchSize listSize divisor n p
        (decide ((sender : Int) = (p : Int) - (coreDiff : Int) ∧ n % p ≠ 0))
      = listSize * divisor
          + (if (sender : Int) = (p : Int) - (coreDiff : Int) ∧ n % p ≠ 0 then n % p else 0) := by
  unfold scratchSize
  by_cases h : (sender : Int) = (p : Int) - (coreDiff : Int) ∧ n % p ≠ 0
  · simp [h]
  · simp only [h, decide_False, if_false, Nat.add_zero]; rfl

/-- C19: for a call of `merge` as `localSort` makes it
(`sender = receiver + distance`, `distance ≥ 1`, `divisor = 2 * distance`,
`P ≥ 1`) whose two ranges lie inside the buffer, the scratch length `size` (`listSize * divisor`, plus
`N mod P` when the remainder test fires) equals `sendEnd - recStart`; the call
returns; after the merge and drain loops the scratch list has `size` cells,
all of them written, and its trace is `size - 1, .., 1, 0`: every index below
`size` written once, none beyond; the write-back loop reads exactly these
indices and leaves the scratch list unchanged. -/
theorem merge_scratch_exactly_filled (receiver sender listSize coreDiff divisor : Nat)
    (buf : List Int) (n p : Nat) (hp : 1 ≤ p) (_hd : 1 ≤ coreDiff)
    (hS : sender = receiver + coreDiff) (hdiv : divisor = 2 * coreDiff)
    (hin : sender * listSize + listSize * coreDiff
        + (if (sender : Int) = (p : Int) - (coreDiff : Int) ∧ n % p ≠ 0 then n % p else 0)
        ≤ buf.length) :
    listSize * divisor
        + (if (sender : Int) = (p : Int) - (coreDiff : Int) ∧ n % p ≠ 0 then n % p else 0)
      = sender * listSize + listSize * coreDiff
          + (if (sender : Int) = (p : Int) - (coreDiff : Int) ∧ n % p ≠ 0 then n % p else 0)
          - receiver * listSize ∧
    ∃ l1 l2 g2,
      mergeTraced receiver sender listSize coreDiff divisor ⟨buf, []⟩ n p = some (l1, l2, g2) ∧
      merge receiver sender listSize coreDiff divisor ⟨buf, []⟩ n p = some g2 ∧
      l1.cells.length = listSize * divisor
        + (if (sender : Int) = (p : Int) - (coreDiff : Int) ∧ n % p ≠ 0 then n % p else 0) ∧
      (∀ i, i < listSize * divisor
          + (if (sender : Int) = (p : Int) - (coreDiff : Int) ∧ n % p ≠ 0 then n % p else 0) →
        ∃ v, l1.cells[i]? = some (some v)) ∧
      l1.log = (List.range (listSize * divisor
        + (if (sender : Int) = (p : Int) - (coreDiff : Int) ∧ n % p ≠ 0 then n % p
            else 0))).reverse ∧
      l2.cells = l1.cells ∧
      l2.log = (List.range (listSize * divisor
        + (if (sender : Int) = (p : Int) - (coreDiff : Int) ∧ n % p ≠ 0 then n % p
            else 0))).reverse ++ l1.log := by
  have hext := senderHasRemain_some sender coreDiff n p hp
  have hse := sendEndOf_decide sender listSize coreDiff n p
  have hsz := scratchSize_decide listSize divisor sender coreDiff n p
  have heq := scratchSize_eq receiver sender listSize coreDiff divisor n p
    (decide ((sender : Int) = (p : Int) - (coreDiff : Int) ∧ n % p ≠ 0)) hS hdiv
  obtain ⟨l1, l2, g2, h1, h2, h3, h4, h5, h6, h7⟩ :=
    mergeTraced_spec receiver sender listSize coreDiff divisor ⟨buf, []⟩ n p _ hext hS hdiv
      (by rw [hse]; exact hin)
  rw [hsz] at h3 h4 h5 h7 heq
  rw [hse] at heq
  exact ⟨heq, l1, l2, g2, h1, h2, h3, h4, h5, h6, h7⟩

/-- C19 at the second round of `N = 6`, `P = 4`: rank `0` merges
`[3, 5]` with the remainder-extended run `[1, 2, 8, 9]` through a scratch list
of six cells. -/
theorem merge_scratch_exactly_filled_witness :
    1 * 4 + (if ((2 : Nat) : Int) = ((4 : Nat) : Int) - ((2 : Nat) : Int) ∧ 6 % 4 ≠ 0
        then 6 % 4 else 0)
      = 2 * 1 + 1 * 2
          + (if ((2 : Nat) : Int) = ((4 : Nat) : Int) - ((2 : Nat) : Int) ∧ 6 % 4 ≠ 0
              then 6 % 4 else 0)
          - 0 * 1 ∧
    ∃ l1 l2 g2,
      mergeTraced 0 2 1 2 4 ⟨[3, 5, 1, 2, 8, 9], []⟩ 6 4 = some (l1, l2, g2) ∧
      merge 0 2 1 2 4 ⟨[3, 5, 1, 2, 8, 9], []⟩ 6 4 = some g2 ∧
      l1.cells.length = 1 * 4
        + (if ((2 : Nat) : Int) = ((4 : Nat) : Int) - ((2 : Nat) : Int) ∧ 6 % 4 ≠ 0
            then 6 % 4 else 0) ∧
      (∀ i, i < 1 * 4
          + (if ((2 : Nat) : Int) = ((4 : Nat) : Int) - ((2 : Nat) : Int) ∧ 6 % 4 ≠ 0
              then 6 % 4 else 0) →
        ∃ v, l1.cells[i]? = some (some v)) ∧
      l1.log = (List.range (1 * 4
        + (if ((2 : Nat) : Int) = ((4 : Nat) : Int) - ((2 : Nat) : Int) ∧ 6 % 4 ≠ 0
            then 6 % 4 else 0))).reverse ∧
      l2.cells = l1.cells ∧
      l2.log = (List.range (1 * 4
        + (if ((2 : Nat) : Int) = ((4 : Nat) : Int) - ((2 : Nat) : Int) ∧ 6 % 4 ≠ 0
            then 6 % 4 else 0))).reverse ++ l1.log :=
  merge_scratch_exactly_filled 0 2 1 2 4 [3, 5, 1, 2, 8, 9] 6 4 (by decide) (by decide)
    (by decide) (by decide) (by decide)


/-! ## Receivers of one round in any order -/

theorem getElem?_splice_mid (buf : List Int) (a b : Nat) (m : List Int) (j : Nat)
    (ha : a ≤ j) (hj : j < b) (hb : b ≤ buf.length) (hm : m.length = b - a) :
    (splice buf a b m)[j]? = m[j - a]? := by
  unfold splice
  have hl : (buf.take a).length = a := by simp; omega
  rw [List.append_assoc, List.getElem?_append_right (by omega), hl,
    List.getElem?_append_left (by omega)]

theorem splice_comm (buf : List Int) (a1 b1 a2 b2 : Nat) (m1 m2 : List Int)
    (h1 : a1 ≤ b1) (h2 : b1 ≤ a2) (h3 : a2 ≤ b2) (h4 : b2 ≤ buf.length)
    (hm1 : m1.length = b1 - a1) (hm2 : m2.length = b2 - a2) :
    splice (splice buf a1 b1 m1) a2 b2 m2 = splice (splice buf a2 b2 m2) a1 b1 m1 := by
  have l1 : (splice buf a1 b1 m1).length = buf.length :=
    splice_length buf a1 b1 m1 h1 (by omega) hm1
  have l2 : (splice buf a2 b2 m2).length = buf.length :=
    splice_length buf a2 b2 m2 h3 h4 hm2
  apply List.ext_getElem?
  intro j
  rcases Nat.lt_or_ge j a1 with c1 | c1
  · rw [getElem?_splice_lt _ _ _ _ j (by omega) (by omega),
      getElem?_splice_lt _ _ _ _ j c1 (by omega),
      getElem?_splice_lt _ _ _ _ j c1 (by omega),
      getElem?_splice_lt _ _ _ _ j (by omega) (by omega)]
  · rcases Nat.lt_or_ge j b1 with c2 | c2
    · rw [getElem?_splice_lt _ _ _ _ j (by omega) (by omega),
        getElem?_splice_mid _ _ _ _ j c1 c2 (by omega) hm1,
        getElem?_splice_mid _ _ _ _ j c1 c2 (by omega) hm1]
    · rcases Nat.lt_or_ge j a2 with c3 | c3
      · rw [getElem?_splice_lt _ _ _ _ j c3 (by omega),
          getElem?_splice_ge _ _ _ _ j c2 h1 (by omega) hm1,
          getElem?_splice_ge _ _ _ _ j c2 h1 (by omega) hm1,
          getElem?_splice_lt _ _ _ _ j c3 (by omega)]
      · rcases Nat.lt_or_ge j b2 with c4 | c4
        · rw [getElem?_splice_mid _ _ _ _ j c3 c4 (by omega) hm2,
            getElem?_splice_ge _ _ _ _ j c2 h1 (by omega) hm1,
            getElem?_splice_mid _ _ _ _ j c3 c4 (by omega) hm2]
        · rw [getElem?_splice_ge _ _ _ _ j c4 h3 (by omega) hm2,
            getElem?_splice_ge _ _ _ _ j c2 h1 (by omega) hm1,
            getElem?_splice_ge _ _ _ _ j c2 h1 (by omega) hm1,
            getElem?_splice_ge _ _ _ _ j c4 h3 (by omega) hm2]

theorem span_order (n p remain d r : Nat) :
    recStartAt n p remain r ≤ sendStartAt n p remain d r ∧
      sendStartAt n p remain d r ≤ sendEndAt n p remain d r := by
  have h1 := sendStartAt_eq n p remain d r
  have h2 := sendEndAt_eq n p remain d r
  constructor <;> omega

theorem stepMerged_length (n p remain d r : Nat) (cells : List Int)
    (hin : sendEndAt n p remain d r ≤ cells.length) :
    (mergeLists
      (slice cells (recStartAt n p remain r) (sendStartAt n p remain d r))
      (slice cells (sendStartAt n p remain d r) (sendEndAt n p remain d r))).length
      = sendEndAt n p remain d r - recStartAt n p remain r := by
  obtain ⟨h1, h2⟩ := span_order n p remain d r
  rw [mergeLists_length, slice_length _ _ _ (by omega), slice_length _ _ _ hin]
  omega

theorem stepCells_length (n p remain d r : Nat) (cells : List Int)
    (hin : r % (2 * d) = 0 → sendEndAt n p remain d r ≤ n) :
    (stepCells n p remain d cells r).length = cells.length := by
  unfold stepCells
  split
  · next h =>
    obtain ⟨h1, h2⟩ := span_order n p remain d r
    have hb : sendEndAt n p remain d r ≤ cells.length := by rw [h.1]; exact hin h.2
    exact splice_length cells _ _ _ (by omega) hb (stepMerged_length n p remain d r cells hb)
  · rfl

theorem mergeStep_cells (n p remain d r : Nat) (g : Arr Int) (hp : 1 ≤ p)
    (hlen : g.cells.length = n) (hin : r % (2 * d) = 0 → sendEndAt n p remain d r ≤ n) :
    ∃ g1, mergeStep n p remain (2 * d) d g r = some g1 ∧
      g1.cells = stepCells n p remain d g.cells r := by
  unfold mergeStep stepCells
  by_cases hr : r % (2 * d) = 0
  · have hext := senderHasRemain_some (r + d) d n p hp
    obtain ⟨lg, hm, _⟩ := merge_spec r (r + d) (listSizeOf n p remain r) d (2 * d) g n p _ hext
      rfl rfl (by rw [hlen]; exact hin hr)
    refine ⟨_, by rw [if_pos hr]; exact hm, ?_⟩
    rw [if_pos ⟨hlen, hr⟩]
    rfl
  · refine ⟨g, by rw [if_neg hr], ?_⟩
    rw [if_neg (fun h => hr h.2)]

theorem stepCells_comm_lt (n p remain d r1 r2 : Nat) (cells : List Int) (hd : 1 ≤ d)
    (hlt : r1 < r2) (hr2 : r2 < p)
    (hin1 : r1 % (2 * d) = 0 → sendEndAt n p remain d r1 ≤ n)
    (hin2 : r2 % (2 * d) = 0 → sendEndAt n p remain d r2 ≤ n) :
    stepCells n p remain d (stepCells n p remain d cells r1) r2
      = stepCells n p remain d (stepCells n p remain d cells r2) r1 := by
  have hl1 := stepCells_length n p remain d r1 cells hin1
  have hl2 := stepCells_length n p remain d r2 cells hin2
  by_cases hn : cells.length = n
  · by_cases h1 : r1 % (2 * d) = 0
    · by_cases h2 : r2 % (2 * d) = 0
      · obtain ⟨o1, o2⟩ := span_order n p remain d r1
        obtain ⟨o3, o4⟩ := span_order n p remain d r2
        have hb := span_before n p remain d r1 r2 hd h1 h2 hlt hr2
        have i1 := hin1 h1
        have i2 := hin2 h2
        have m1 := stepMerged_length n p remain d r1 cells (by omega)
        have m2 := stepMerged_length n p remain d r2 cells (by omega)
        have f1 : ∀ x : List Int, x.length = n → stepCells n p remain d x r2
            = splice x (recStartAt n p remain r2) (sendEndAt n p remain d r2)
                (mergeLists
                  (slice x (recStartAt n p remain r2) (sendStartAt n p remain d r2))
                  (slice x (sendStartAt n p remain d r2) (sendEndAt n p remain d r2))) := by
          intro x hx; unfold stepCells; rw [if_pos ⟨hx, h2⟩]
        have f2 : ∀ x : List Int, x.length = n → stepCells n p remain d x r1
            = splice x (recStartAt n p remain r1) (sendEndAt n p remain d r1)
                (mergeLists
                  (slice x (recStartAt n p remain r1) (sendStartAt n p remain d r1))
                  (slice x (sendStartAt n p remain d r1) (sendEndAt n p remain d r1))) := by
          intro x hx; unfold stepCells; rw [if_pos ⟨hx, h1⟩]
        rw [f1 (stepCells n p remain d cells r1) (by omega),
          f2 (stepCells n p remain d cells r2) (by omega), f2 cells hn, f1 cells hn,
          slice_splice_after cells _ _ _ _ _ (by omega) (by omega) (by omega) m1,
          slice_splice_after cells _ _ _ _ _ (by omega) (by omega) (by omega) m1,
          slice_splice_before cells _ _ _ _ _ (by omega) (by omega),
          slice_splice_before cells _ _ _ _ _ (by omega) (by omega)]
        exact splice_comm cells _ _ _ _ _ _ (by omega) hb (by omega) (by omega) m1 m2
      · have e2 : ∀ x, stepCells n p remain d x r2 = x := by
          intro x; unfold stepCells; rw [if_neg (fun h => h2 h.2)]
        rw [e2, e2]
    · have e1 : ∀ x, stepCells n p remain d x r1 = x := by
        intro x; unfold stepCells; rw [if_neg (fun h => h1 h.2)]
      rw [e1, e1]
  · have e : ∀ r, stepCells n p remain d cells r = cells := by
      intro r; unfold stepCells; rw [if_neg (fun h => hn h.1)]
    rw [e r1, e r2, e r1]


theorem stepCells_comm (n p remain d r1 r2 : Nat) (cells : List Int) (hd : 1 ≤ d)
    (hr1 : r1 < p) (hr2 : r2 < p)
    (hin1 : r1 % (2 * d) = 0 → sendEndAt n p remain d r1 ≤ n)
    (hin2 : r2 % (2 * d) = 0 → sendEndAt n p remain d r2 ≤ n) :
    stepCells n p remain d (stepCells n p remain d cells r1) r2
      = stepCells n p remain d (stepCells n p remain d cells r2) r1 := by
  rcases Nat.lt_trichotomy r1 r2 with h | h | h
  · exact stepCells_comm_lt n p remain d r1 r2 cells hd h hr2 hin1 hin2
  · subst h; rfl
  · exact (stepCells_comm_lt n p remain d r2 r1 cells hd h hr1 hin2 hin1).symm

theorem mergeRoundIn_cells (n p remain d : Nat) (hp : 1 ≤ p) :
    ∀ (order : List Nat) (g : Arr Int), g.cells.length = n →
      (∀ r ∈ order, r % (2 * d) = 0 → sendEndAt n p remain d r ≤ n) →
      ∃ g1, mergeRoundIn n p remain (2 * d) d order g = some g1 ∧
        g1.cells = order.foldl (stepCells n p remain d) g.cells := by
  intro order
  induction order with
  | nil =>
    intro g _ _
    exact ⟨g, rfl, rfl⟩
  | cons r rest ih =>
    intro g hlen hin
    obtain ⟨g1, e1, c1⟩ := mergeStep_cells n p remain d r g hp hlen (hin r (by simp))
    have hl1 : g1.cells.length = n := by
      rw [c1, stepCells_length n p remain d r g.cells (hin r (by simp)), hlen]
    obtain ⟨g2, e2, c2⟩ := ih g1 hl1 (fun x hx => hin x (List.mem_cons_of_mem _ hx))
    refine ⟨g2, ?_, ?_⟩
    · simp only [mergeRoundIn, e1]; exact e2
    · rw [c2, c1]; rfl

theorem mergeRoundIn_append (n p remain divisor cd : Nat) :
    ∀ (l1 l2 : List Nat) (g : Arr Int),
      mergeRoundIn n p remain divisor cd (l1 ++ l2) g
        = (mergeRoundIn n p remain divisor cd l1 g).bind
            (mergeRoundIn n p remain divisor cd l2) := by
  intro l1
  induction l1 with
  | nil => intro l2 g; rfl
  | cons r rest ih =>
    intro l2 g
    simp only [List.cons_append, mergeRoundIn]
    cases mergeStep n p remain divisor cd g r with
    | none => rfl
    | some g1 => exact ih l2 g1

theorem mergeRound_eq_mergeRoundIn (n p remain divisor cd : Nat) :
    ∀ (k : Nat) (g : Arr Int),
      mergeRound n p remain divisor cd k g
        = mergeRoundIn n p remain divisor cd (List.range k) g := by
  intro k
  induction k with
  | zero => intro g; rfl
  | succ k ih =>
    intro g
    rw [List.range_succ, mergeRoundIn_append, ← ih]
    simp only [mergeRound]
    cases mergeRound n p remain divisor cd k g with
    | none => rfl
    | some g1 =>
      simp only [Option.some_bind, mergeRoundIn]
      cases mergeStep n p remain divisor cd g1 k <;> rfl

/-- C18: for `N ≥ P ≥ 1`, the remainder computed by `main`, a round with
`divisor = 2 * distance ≤ P` and a buffer of `N` integers: for two different
receivers whose spans lie inside the buffer, `merge` for the first and then for
the second returns the same buffer as `merge` for the second and then for the
first; the round run over any list of ranks whose receivers' spans lie inside
the buffer returns, and returns the same buffer for every reordering of the
list; and the round of the program is the round over the ranks
`0, 1, .., P - 1`. -/
theorem merge_order_independent (n p remain d : Nat) (g : Arr Int) (hp : 1 ≤ p)
    (_hnp : p ≤ n) (_hrem : mainRemain n p = some remain) (hd : 1 ≤ d) (_hdiv : 2 * d ≤ p)
    (hlen : g.cells.length = n) :
    (∀ r1 r2, r1 < p → r2 < p → r1 % (2 * d) = 0 → r2 % (2 * d) = 0 → r1 ≠ r2 →
      sendEndAt n p remain d r1 ≤ n → sendEndAt n p remain d r2 ≤ n →
      ∃ g1 g12 g2 g21,
        merge r1 (r1 + d) (listSizeOf n p remain r1) d (2 * d) g n p = some g1 ∧
        merge r2 (r2 + d) (listSizeOf n p remain r2) d (2 * d) g1 n p = some g12 ∧
        merge r2 (r2 + d) (listSizeOf n p remain r2) d (2 * d) g n p = some g2 ∧
        merge r1 (r1 + d) (listSizeOf n p remain r1) d (2 * d) g2 n p = some g21 ∧
        g12.cells = g21.cells) ∧
    (∀ order1 order2 : List Nat, order1.Perm order2 →
      (∀ r ∈ order1, r < p ∧ (r % (2 * d) = 0 → sendEndAt n p remain d r ≤ n)) →
      ∃ g1 g2, mergeRoundIn n p remain (2 * d) d order1 g = some g1 ∧
        mergeRoundIn n p remain (2 * d) d order2 g = some g2 ∧ g1.cells = g2.cells) ∧
    mergeRound n p remain (2 * d) d p g
      = mergeRoundIn n p remain (2 * d) d (List.range p) g := by
  refine ⟨?_, ?_, mergeRound_eq_mergeRoundIn n p remain (2 * d) d p g⟩
  · intro r1 r2 hr1 hr2 h1 h2 _ i1 i2
    have hs1 : ∀ x, mergeStep n p remain (2 * d) d x r1
        = merge r1 (r1 + d) (listSizeOf n p remain r1) d (2 * d) x n p := by
      intro x; unfold mergeStep; rw [if_pos h1]
    have hs2 : ∀ x, mergeStep n p remain (2 * d) d x r2
        = merge r2 (r2 + d) (listSizeOf n p remain r2) d (2 * d) x n p := by
      intro x; unfold mergeStep; rw [if_pos h2]
    obtain ⟨g1, e1, c1⟩ := mergeStep_cells n p remain d r1 g hp hlen (fun _ => i1)
    obtain ⟨g2, e2, c2⟩ := mergeStep_cells n p remain d r2 g hp hlen (fun _ => i2)
    have l1 : g1.cells.length = n := by
      rw [c1, stepCells_length n p remain d r1 g.cells (fun _ => i1), hlen]
    have l2 : g2.cells.length = n := by
      rw [c2, stepCells_length n p remain d r2 g.cells (fun _ => i2), hlen]
    obtain ⟨g12, e12, c12⟩ := mergeStep_cells n p remain d r2 g1 hp l1 (fun _ => i2)
    obtain ⟨g21, e21, c21⟩ := mergeStep_cells n p remain d r1 g2 hp l2 (fun _ => i1)
    rw [hs1] at e1 e21
    rw [hs2] at e2 e12
    refine ⟨g1, g12, g2, g21, e1, e12, e2, e21, ?_⟩
    rw [c12, c21, c1, c2]
    exact stepCells_comm n p remain d r1 r2 g.cells hd hr1 hr2 (fun _ => i1) (fun _ => i2)
  · intro order1 order2 hperm hin
    obtain ⟨g1, e1, c1⟩ := mergeRoundIn_cells n p remain d hp order1 g hlen
      (fun r hr => (hin r hr).2)
    obtain ⟨g2, e2, c2⟩ := mergeRoundIn_cells n p remain d hp order2 g hlen
      (fun r hr => (hin r (hperm.symm.subset hr)).2)
    refine ⟨g1, g2, e1, e2, ?_⟩
    rw [c1, c2]
    exact List.Perm.foldl_eq' hperm
      (fun x hx y hy z =>
        stepCells_comm n p remain d x y z hd (hin x hx).1 (hin y hy).1 (hin x hx).2
          (hin y hy).2) g.cells

/-- C18 at the first round of `N = 6`, `P = 4` on the buffer
`[5, 3, 8, 1, 2, 9]`: the receivers `0` and `2` in both orders, and the ranks
in the order `3, 2, 1, 0`. -/
theorem merge_order_independent_witness :
    ((mergeRoundIn 6 4 2 (2 * 1) 1 [0, 1, 2, 3] ⟨[5, 3, 8, 1, 2, 9], []⟩).map
        (fun g => g.cells) = some [3, 5, 1, 2, 8, 9] ∧
      (mergeRoundIn 6 4 2 (2 * 1) 1 [3, 2, 1, 0] ⟨[5, 3, 8, 1, 2, 9], []⟩).map
        (fun g => g.cells) = some [3, 5, 1, 2, 8, 9]) ∧
    ∃ g1 g2, mergeRoundIn 6 4 2 (2 * 1) 1 [0, 1, 2, 3] ⟨[5, 3, 8, 1, 2, 9], []⟩ = some g1 ∧
      mergeRoundIn 6 4 2 (2 * 1) 1 [3, 2, 1, 0] ⟨[5, 3, 8, 1, 2, 9], []⟩ = some g2 ∧
      g1.cells = g2.cells :=
  ⟨⟨by decide, by decide⟩,
    (merge_order_independent 6 4 2 1 ⟨[5, 3, 8, 1, 2, 9], []⟩ (by decide) (by decide)
      (by decide) (by decide) (by decide) (by decide)).2.1 [0, 1, 2, 3] [3, 2, 1, 0]
      (by decide) (by decide)⟩

end ParallelMergeSort
